import Mathlib

/-!
# Verification of the origin-game board/scoring engine

A shallow embedding of the game's JavaScript source (`game.js` and the
extended variant with `clear`/`randomize`): the triangular board geometry,
the disjoint-set forest, the reservoir sampler, the scoring engine and the
turn state machine, together with theorems settling the specification
claims.

Conventions of the embedding:
* JavaScript `undefined` is modelled by `Option.none`; array reads out of
  range yield `none`, array writes out of range are no-ops (observationally
  faithful: later in-range reads are unaffected).
* JavaScript `%` on integers is truncated remainder, i.e. `Int.tmod`.
* `Math.random()` and the transcendental functions `Math.pow`/`Math.log`
  are injected as an explicit entropy structure over `ℚ`; every theorem
  about randomized code quantifies over the entropy, so it holds for every
  value the floating-point source could produce.
* A thrown exception is modelled by returning the error alongside the
  state at throw time (`setOccupant`) or by an `Except.error` value
  (`union`'s `TypeError`).
* The real-valued reported scores are `Real.logb 2` of the exactly-tracked
  natural-number products; the cache stores the exact data.
-/

/-- The `Occupant` enumeration: `NOBODY = 0`, `PLAYER_1 = 1`, `PLAYER_2 = 2`. -/
inductive Occupant : Type
  | nobody : Occupant
  | player1 : Occupant
  | player2 : Occupant
deriving DecidableEq, Repr

/-- The data cached by `getScores`: the pre-logarithm territory products and
the exact rational estimates.  (The JavaScript object stores
`p1score = Math.log2(p1prod)`; the log is recovered by `ScoreData.p1score`
below, so equality of `ScoreData` corresponds to equality of the cached
object's contents.) -/
structure ScoreData : Type where
  p1prod : ℕ
  p2prod : ℕ
  p1estimate : ℚ
  p2estimate : ℚ
deriving DecidableEq, Repr

/-- The reported `p1score` field: `Math.log2` of the product. -/
noncomputable def ScoreData.p1score (s : ScoreData) : ℝ := Real.logb 2 s.p1prod

/-- The reported `p2score` field: `Math.log2` of the product. -/
noncomputable def ScoreData.p2score (s : ScoreData) : ℝ := Real.logb 2 s.p2prod

/-- The `Board` class: linear tile store plus the geometry fields set by the
constructor, and the score cache. -/
structure Board : Type where
  tiles : List Occupant
  nrows : ℕ
  ncols : ℕ
  matWidth : ℕ
  matHeight : ℕ
  cachedScores : Option ScoreData
deriving DecidableEq, Repr

/-- `new Board(nrows)`: `w = Math.floor(nrows / 2 + 1)`,
`h = Math.ceil(nrows / 2)`, tiles all `NOBODY`, no cached scores. -/
def mkBoard (nrows : ℕ) : Board :=
  let w := nrows / 2 + 1
  let h := (nrows + 1) / 2
  { tiles := List.replicate (w * h) Occupant.nobody
    nrows := nrows
    ncols := w
    matWidth := w
    matHeight := h
    cachedScores := none }

/-- The geometry fields are the ones the constructor computes from `nrows`,
and the tile store has the constructed length.  Every board the program can
build satisfies this, and it is preserved by all mutations. -/
def Board.Wf (b : Board) : Prop :=
  b.ncols = b.nrows / 2 + 1 ∧
  b.matWidth = b.nrows / 2 + 1 ∧
  b.matHeight = (b.nrows + 1) / 2 ∧
  b.tiles.length = b.matWidth * b.matHeight

instance (b : Board) : Decidable b.Wf := by
  unfold Board.Wf; infer_instance

/-- `Board.isValidLocation(r, c)`. -/
def isValidLocation (b : Board) (r c : ℤ) : Bool :=
  let validRow := 0 ≤ r ∧ r < (b.nrows : ℤ)
  let validCol := 0 ≤ c ∧ c < (b.ncols : ℤ)
  let inUpperTri := r < (b.matHeight : ℤ) ∧ c ≤ r
  let inLowerTri := (b.matHeight : ℤ) ≤ r ∧ r - (b.matHeight : ℤ) < c
  decide (validRow ∧ validCol ∧ (inUpperTri ∨ inLowerTri))

/-- `Board.toIndex(r, c) = (r % matHeight) * matWidth + c` with JavaScript's
truncated `%`. -/
def toIndex (b : Board) (r c : ℤ) : ℤ :=
  (Int.tmod r b.matHeight) * b.matWidth + c

/-- `Board.getOccupant(r, c)`: reads the tile store at the raw index with no
validity check; an out-of-range index reads as `undefined` (`none`). -/
def getOccupant (b : Board) (r c : ℤ) : Option Occupant :=
  let i := toIndex b r c
  if 0 ≤ i then b.tiles[i.toNat]? else none

/-- `Board.setOccupant(r, c, o)`: throws (first component `some` message)
on an invalid location, leaving the board exactly as it was; otherwise
writes the tile and invalidates the score cache. -/
def setOccupant (b : Board) (r c : ℤ) (o : Occupant) :
    Option String × Board :=
  if isValidLocation b r c then
    (none,
      { b with
        tiles := b.tiles.set (toIndex b r c).toNat o
        cachedScores := none })
  else
    (some "setOccupant: Invalid location", b)

/-- The board produced by `setOccupant`, whether or not it threw.  (On the
throwing branch nothing was written, so this is the unchanged board.) -/
def setOccupant2 (b : Board) (r c : ℤ) (o : Occupant) : Board :=
  (setOccupant b r c o).2

/-- The column list visited by `Board.forEach` for a single row `r`:
`c` from `cb = max(0, r - matHeight + 1)` up to (excluding)
`ce = min(r - matHeight + ncols, ncols)`. -/
def rowCols (b : Board) (r : ℕ) : List ℕ :=
  let cb : ℤ := max 0 ((r : ℤ) - b.matHeight + 1)
  let ce : ℤ := min ((r : ℤ) - b.matHeight + b.ncols) b.ncols
  List.range' cb.toNat (ce - cb).toNat

/-- The `(r, c)` sequence visited by `Board.forEach`, in order. -/
def boardLocs (b : Board) : List (ℕ × ℕ) :=
  (List.range b.nrows).flatMap fun r => (rowCols b r).map fun c => (r, c)

/-- `Board.clear()`: `forEach` writes `NOBODY` into every visited tile and
the cache is invalidated. -/
def Board.clear (b : Board) : Board :=
  { b with
    tiles := (boardLocs b).foldl
      (fun t rc => t.set (toIndex b rc.1 rc.2).toNat Occupant.nobody) b.tiles
    cachedScores := none }

example : (mkBoard 2).tiles = [.nobody, .nobody] ∧ (mkBoard 2).matHeight = 1 := by decide

/-! ## Geometry facts: the index bijection -/

lemma mkBoard_wf (n : ℕ) : (mkBoard n).Wf := by
  refine ⟨rfl, rfl, rfl, ?_⟩
  simp [mkBoard]

lemma wf_cases {b : Board} (hb : b.Wf) :
    b.ncols = b.matWidth ∧ b.tiles.length = b.matWidth * b.matHeight ∧
      (b.nrows = 2 * b.matHeight ∧ b.matWidth = b.matHeight + 1 ∨
        b.nrows = 2 * b.matHeight - 1 ∧ b.matWidth = b.matHeight ∧
          1 ≤ b.matHeight) := by
  obtain ⟨h1, h2, h3, h4⟩ := hb
  exact ⟨by omega, h4, by omega⟩

lemma isValidLocation_iff (b : Board) (r c : ℤ) :
    isValidLocation b r c = true ↔
      0 ≤ r ∧ r < (b.nrows : ℤ) ∧ 0 ≤ c ∧ c < (b.ncols : ℤ) ∧
        ((r < (b.matHeight : ℤ) ∧ c ≤ r) ∨
          ((b.matHeight : ℤ) ≤ r ∧ r - b.matHeight < c)) := by
  simp only [isValidLocation, decide_eq_true_eq]
  tauto

lemma tmod_of_bounds {r : ℤ} {h : ℕ} (h0 : 0 ≤ r) (h2 : r < 2 * h) :
    Int.tmod r h = if r < h then r else r - h := by
  rw [Int.tmod_eq_emod h0 (by positivity)]
  split
  · exact Int.emod_eq_of_lt h0 (by assumption)
  · rw [← Int.emod_sub_cancel r h]
    exact Int.emod_eq_of_lt (by omega) (by omega)

/-- A valid location's linear index lies in `[0, tiles.length)`. -/
theorem toIndex_range {b : Board} (hb : b.Wf) {r c : ℤ}
    (hv : isValidLocation b r c = true) :
    0 ≤ toIndex b r c ∧ toIndex b r c < (b.tiles.length : ℤ) := by
  obtain ⟨hwm, hlen, hcase⟩ := wf_cases hb
  rw [isValidLocation_iff] at hv
  obtain ⟨hr0, hrn, hc0, hcw, htri⟩ := hv
  have h2h : (b.nrows : ℤ) ≤ 2 * b.matHeight := by omega
  have hmod : Int.tmod r b.matHeight = if r < (b.matHeight : ℤ) then r else r - b.matHeight :=
    tmod_of_bounds hr0 (by omega)
  have hmlt : Int.tmod r b.matHeight < (b.matHeight : ℤ) := by
    rw [hmod]; split <;> omega
  have hm0 : 0 ≤ Int.tmod r b.matHeight := by
    rw [hmod]; split <;> omega
  unfold toIndex
  constructor
  · have := mul_nonneg hm0 (by positivity : (0:ℤ) ≤ b.matWidth)
    omega
  · have hstep : Int.tmod r b.matHeight * b.matWidth + c <
        (Int.tmod r b.matHeight + 1) * b.matWidth := by
      rw [add_mul, one_mul]; omega
    have hbd : (Int.tmod r b.matHeight + 1) * (b.matWidth : ℤ) ≤
        (b.matHeight : ℤ) * b.matWidth :=
      mul_le_mul_of_nonneg_right (by omega) (by positivity)
    have : ((b.tiles.length : ℤ)) = (b.matHeight : ℤ) * b.matWidth := by
      rw [hlen]; push_cast; ring
    omega

/-- `toIndex` is injective on valid locations. -/
theorem toIndex_inj {b : Board} (hb : b.Wf) {r₁ c₁ r₂ c₂ : ℤ}
    (hv₁ : isValidLocation b r₁ c₁ = true)
    (hv₂ : isValidLocation b r₂ c₂ = true)
    (heq : toIndex b r₁ c₁ = toIndex b r₂ c₂) : r₁ = r₂ ∧ c₁ = c₂ := by
  obtain ⟨hwm, hlen, hcase⟩ := wf_cases hb
  rw [isValidLocation_iff] at hv₁ hv₂
  obtain ⟨hr0, hrn, hc0, hcw, htri⟩ := hv₁
  obtain ⟨hr0', hrn', hc0', hcw', htri'⟩ := hv₂
  have hmod : Int.tmod r₁ b.matHeight =
      if r₁ < (b.matHeight : ℤ) then r₁ else r₁ - b.matHeight :=
    tmod_of_bounds hr0 (by omega)
  have hmod' : Int.tmod r₂ b.matHeight =
      if r₂ < (b.matHeight : ℤ) then r₂ else r₂ - b.matHeight :=
    tmod_of_bounds hr0' (by omega)
  unfold toIndex at heq
  have hw1 : (1 : ℤ) ≤ b.matWidth := by omega
  -- extract the column by taking the equation mod matWidth
  have hcmod : c₁ = c₂ := by
    have e1 : (c₁ + Int.tmod r₁ b.matHeight * b.matWidth) % b.matWidth = c₁ % b.matWidth :=
      Int.add_mul_emod_self
    have e2 : (c₂ + Int.tmod r₂ b.matHeight * b.matWidth) % b.matWidth = c₂ % b.matWidth :=
      Int.add_mul_emod_self
    have ec1 : c₁ % (b.matWidth : ℤ) = c₁ := Int.emod_eq_of_lt hc0 (by omega)
    have ec2 : c₂ % (b.matWidth : ℤ) = c₂ := Int.emod_eq_of_lt hc0' (by omega)
    have : (c₁ + Int.tmod r₁ b.matHeight * b.matWidth) =
        (c₂ + Int.tmod r₂ b.matHeight * b.matWidth) := by omega
    rw [this] at e1
    omega
  have hmeq : Int.tmod r₁ b.matHeight = Int.tmod r₂ b.matHeight := by
    have := heq
    have hne : (b.matWidth : ℤ) ≠ 0 := by omega
    have : Int.tmod r₁ b.matHeight * (b.matWidth : ℤ) =
        Int.tmod r₂ b.matHeight * b.matWidth := by omega
    exact mul_right_cancel₀ hne this
  refine ⟨?_, hcmod⟩
  rw [hmod, hmod'] at hmeq
  -- same residue: the triangle conditions force the same half
  rcases htri with ⟨hu, hcu⟩ | ⟨hl, hcl⟩ <;>
    rcases htri' with ⟨hu', hcu'⟩ | ⟨hl', hcl'⟩ <;>
    split_ifs at hmeq <;> omega

/-- Every linear index in `[0, tiles.length)` is hit by some valid location. -/
theorem toIndex_surj {b : Board} (hb : b.Wf) {k : ℤ}
    (hk0 : 0 ≤ k) (hklen : k < (b.tiles.length : ℤ)) :
    ∃ r c : ℤ, isValidLocation b r c = true ∧ toIndex b r c = k := by
  obtain ⟨hwm, hlen, hcase⟩ := wf_cases hb
  have hw1 : (1 : ℤ) ≤ b.matWidth := by omega
  have hlenz : ((b.tiles.length : ℤ)) = (b.matWidth : ℤ) * b.matHeight := by
    rw [hlen]; push_cast; ring
  have hh1 : (1 : ℤ) ≤ b.matHeight := by
    by_contra hcon
    have : (b.matHeight : ℤ) = 0 := by omega
    rw [this] at hlenz
    omega
  set m : ℤ := k / b.matWidth with hm
  set c : ℤ := k % b.matWidth with hc
  have hdm : m * (b.matWidth : ℤ) + c = k := by
    rw [mul_comm]; exact Int.ediv_add_emod k _
  have hc0 : 0 ≤ c := Int.emod_nonneg k (by omega)
  have hcw : c < (b.matWidth : ℤ) := Int.emod_lt_of_pos k (by omega)
  have hm0 : 0 ≤ m := Int.ediv_nonneg hk0 (by omega)
  have hmh : m < (b.matHeight : ℤ) := by
    by_contra hcon
    push_neg at hcon
    have hcon2 : (b.matWidth : ℤ) * b.matHeight ≤ b.matWidth * m :=
      mul_le_mul_of_nonneg_left hcon (by omega)
    rw [mul_comm (b.matWidth : ℤ) m] at hcon2
    omega
  by_cases hcm : c ≤ m
  · -- upper triangle: r = m
    refine ⟨m, c, ?_, ?_⟩
    · rw [isValidLocation_iff]
      exact ⟨hm0, by omega, hc0, by omega, Or.inl ⟨hmh, hcm⟩⟩
    · unfold toIndex
      rw [tmod_of_bounds hm0 (by omega), if_pos hmh]
      omega
  · -- lower triangle: r = m + matHeight
    push_neg at hcm
    have hrn : m + (b.matHeight : ℤ) < b.nrows := by
      rcases hcase with ⟨he, hwh⟩ | ⟨ho, hwh, hh⟩ <;> omega
    refine ⟨m + b.matHeight, c, ?_, ?_⟩
    · rw [isValidLocation_iff]
      exact ⟨by omega, hrn, hc0, by omega, Or.inr ⟨by omega, by omega⟩⟩
    · unfold toIndex
      rw [tmod_of_bounds (by omega) (by omega), if_neg (by omega)]
      have : m + (b.matHeight : ℤ) - b.matHeight = m := by ring
      rw [this]
      omega

/-- C1: for every board constructed with `rowCount ≥ 2`, the linear index
map `index(r,c) = (r mod matHeight) * colCount + c`, restricted to the
pairs satisfying the validity predicate, is a bijection onto
`{0, …, totalValidCells − 1}` where
`totalValidCells = colCount * ceil(rowCount/2)` is the size of the store:
indices of valid cells are in range, no two valid cells share an index,
and every index is hit. -/
theorem toIndex_bijection (n : ℕ) (hn : 2 ≤ n) :
    (mkBoard n).tiles.length = (n / 2 + 1) * ((n + 1) / 2) ∧
    (∀ r c : ℤ, isValidLocation (mkBoard n) r c = true →
      0 ≤ toIndex (mkBoard n) r c ∧
        toIndex (mkBoard n) r c < ((mkBoard n).tiles.length : ℤ)) ∧
    (∀ r₁ c₁ r₂ c₂ : ℤ, isValidLocation (mkBoard n) r₁ c₁ = true →
      isValidLocation (mkBoard n) r₂ c₂ = true →
      toIndex (mkBoard n) r₁ c₁ = toIndex (mkBoard n) r₂ c₂ →
      r₁ = r₂ ∧ c₁ = c₂) ∧
    (∀ k : ℤ, 0 ≤ k → k < ((mkBoard n).tiles.length : ℤ) →
      ∃ r c : ℤ, isValidLocation (mkBoard n) r c = true ∧
        toIndex (mkBoard n) r c = k) := by
  refine ⟨by simp [mkBoard], ?_, ?_, ?_⟩
  · exact fun r c hv => toIndex_range (mkBoard_wf n) hv
  · exact fun r₁ c₁ r₂ c₂ hv₁ hv₂ heq => toIndex_inj (mkBoard_wf n) hv₁ hv₂ heq
  · exact fun k hk0 hklen => toIndex_surj (mkBoard_wf n) hk0 hklen

theorem toIndex_bijection_witness :
    2 ≤ 4 ∧
    ((mkBoard 4).tiles.length = (4 / 2 + 1) * ((4 + 1) / 2) ∧
    (∀ r c : ℤ, isValidLocation (mkBoard 4) r c = true →
      0 ≤ toIndex (mkBoard 4) r c ∧
        toIndex (mkBoard 4) r c < ((mkBoard 4).tiles.length : ℤ)) ∧
    (∀ r₁ c₁ r₂ c₂ : ℤ, isValidLocation (mkBoard 4) r₁ c₁ = true →
      isValidLocation (mkBoard 4) r₂ c₂ = true →
      toIndex (mkBoard 4) r₁ c₁ = toIndex (mkBoard 4) r₂ c₂ →
      r₁ = r₂ ∧ c₁ = c₂) ∧
    (∀ k : ℤ, 0 ≤ k → k < ((mkBoard 4).tiles.length : ℤ) →
      ∃ r c : ℤ, isValidLocation (mkBoard 4) r c = true ∧
        toIndex (mkBoard 4) r c = k)) :=
  ⟨by norm_num, toIndex_bijection 4 (by norm_num)⟩

/-! ## The `forEach` enumeration -/

lemma mem_rowCols (b : Board) (r c : ℕ) :
    c ∈ rowCols b r ↔
      (max 0 ((r : ℤ) - b.matHeight + 1) ≤ (c : ℤ) ∧
        (c : ℤ) < min ((r : ℤ) - b.matHeight + b.ncols) (b.ncols : ℤ)) := by
  unfold rowCols
  simp only [List.mem_range']
  constructor
  · rintro ⟨i, hi, rfl⟩
    omega
  · intro hc
    refine ⟨c - (max 0 ((r : ℤ) - b.matHeight + 1)).toNat, by omega, by omega⟩

lemma mem_boardLocs (b : Board) (r c : ℕ) :
    (r, c) ∈ boardLocs b ↔ r < b.nrows ∧ c ∈ rowCols b r := by
  unfold boardLocs
  simp only [List.mem_flatMap, List.mem_range, List.mem_map, Prod.mk.injEq]
  constructor
  · rintro ⟨r', hr', c', hc', rfl, rfl⟩
    exact ⟨hr', hc'⟩
  · rintro ⟨hr, hc⟩
    exact ⟨r, hr, c, hc, rfl, rfl⟩

/-- Every location `forEach` visits is valid (for any well-formed board). -/
lemma boardLocs_valid {b : Board} (hb : b.Wf) {r c : ℕ}
    (hmem : (r, c) ∈ boardLocs b) : isValidLocation b (r : ℤ) (c : ℤ) = true := by
  obtain ⟨hwm, hlen, hcase⟩ := wf_cases hb
  rw [mem_boardLocs] at hmem
  obtain ⟨hr, hc⟩ := hmem
  rw [mem_rowCols] at hc
  rw [isValidLocation_iff]
  rcases hcase with ⟨he, hwh⟩ | ⟨ho, hwh, hh⟩ <;>
    refine ⟨by omega, by omega, by omega, by omega, ?_⟩ <;> omega

/-- For a board with an even row count (as the game's board `Board(16)` is),
`forEach` visits exactly the valid locations. -/
lemma mem_boardLocs_iff_valid {b : Board} (hb : b.Wf)
    (he : b.nrows % 2 = 0) (r c : ℕ) :
    (r, c) ∈ boardLocs b ↔ isValidLocation b (r : ℤ) (c : ℤ) = true := by
  constructor
  · exact boardLocs_valid hb
  · intro hv
    obtain ⟨hwm, hlen, hcase⟩ := wf_cases hb
    rw [isValidLocation_iff] at hv
    rw [mem_boardLocs, mem_rowCols]
    rcases hcase with ⟨hev, hwh⟩ | ⟨ho, hwh, hh⟩ <;> omega

lemma boardLocs_nodup (b : Board) : (boardLocs b).Nodup := by
  unfold boardLocs
  rw [List.nodup_flatMap]
  constructor
  · intro r _
    exact (List.nodup_range' _ _).map (fun c c' h => by
      simpa using congrArg Prod.snd h)
  · refine List.Pairwise.imp ?_ (List.pairwise_lt_range _)
    intro r r' hlt
    intro p hp hp'
    simp only [List.mem_map] at hp hp'
    obtain ⟨c, _, rfl⟩ := hp
    obtain ⟨c', _, heq⟩ := hp'
    exact absurd (congrArg Prod.fst heq).symm (by simpa using hlt.ne)

/-- Valid locations have distinct linear indices along `forEach`
(natural-number form of the injectivity). -/
lemma boardLocs_indices_nodup {b : Board} (hb : b.Wf) :
    ((boardLocs b).map fun rc => (toIndex b rc.1 rc.2).toNat).Nodup := by
  refine (List.nodup_map_iff_inj_on (boardLocs_nodup b)).2 ?_
  rintro ⟨r, c⟩ hrc ⟨r', c'⟩ hrc' heq
  have hv := boardLocs_valid hb hrc
  have hv' := boardLocs_valid hb hrc'
  obtain ⟨hi0, _⟩ := toIndex_range hb hv
  obtain ⟨hi0', _⟩ := toIndex_range hb hv'
  have : toIndex b r c = toIndex b r' c' := by simp only at heq; omega
  obtain ⟨h1, h2⟩ := toIndex_inj hb hv hv' this
  have : r = r' := by exact_mod_cast h1
  have : c = c' := by exact_mod_cast h2
  simp_all

/-- On an even-row-count board, `forEach` visits as many cells as the
linear store holds (each exactly once). -/
lemma boardLocs_length {b : Board} (hb : b.Wf) (he : b.nrows % 2 = 0) :
    (boardLocs b).length = b.tiles.length := by
  classical
  set L := (boardLocs b).map fun rc => (toIndex b rc.1 rc.2).toNat with hL
  have hnodup : L.Nodup := boardLocs_indices_nodup hb
  have hset : L.toFinset = Finset.range b.tiles.length := by
    ext k
    simp only [List.mem_toFinset, Finset.mem_range, hL, List.mem_map]
    constructor
    · rintro ⟨⟨r, c⟩, hrc, rfl⟩
      have hv := boardLocs_valid hb hrc
      obtain ⟨hi0, hilen⟩ := toIndex_range hb hv
      simp only
      omega
    · intro hk
      obtain ⟨r, c, hv, hidx⟩ := toIndex_surj hb (Int.ofNat_nonneg k)
        (by exact_mod_cast hk)
      have hr0 : 0 ≤ r := ((isValidLocation_iff b r c).1 hv).1
      have hc0 : 0 ≤ c := ((isValidLocation_iff b r c).1 hv).2.2.1
      refine ⟨(r.toNat, c.toNat), ?_, ?_⟩
      · rw [mem_boardLocs_iff_valid hb he]
        rwa [Int.toNat_of_nonneg hr0, Int.toNat_of_nonneg hc0]
      · rw [Int.toNat_of_nonneg hr0, Int.toNat_of_nonneg hc0, hidx]
        omega
  have hcard : L.length = b.tiles.length := by
    rw [← List.toFinset_card_of_nodup hnodup, hset, Finset.card_range]
  simpa [hL] using hcard

lemma boardLocs_ext {b b' : Board} (h1 : b.nrows = b'.nrows)
    (h2 : b.ncols = b'.ncols) (h3 : b.matHeight = b'.matHeight) :
    boardLocs b = boardLocs b' := by
  unfold boardLocs rowCols
  rw [h1, h2, h3]

/-! ## Accessors: set/get round trip and error behavior -/

lemma setOccupant2_fields (b : Board) (r c : ℤ) (o : Occupant) :
    (setOccupant2 b r c o).nrows = b.nrows ∧
    (setOccupant2 b r c o).ncols = b.ncols ∧
    (setOccupant2 b r c o).matWidth = b.matWidth ∧
    (setOccupant2 b r c o).matHeight = b.matHeight ∧
    (setOccupant2 b r c o).tiles.length = b.tiles.length := by
  unfold setOccupant2 setOccupant
  split <;> simp

lemma setOccupant2_wf {b : Board} (hb : b.Wf) (r c : ℤ) (o : Occupant) :
    (setOccupant2 b r c o).Wf := by
  obtain ⟨w1, w2, w3, w4⟩ := hb
  unfold setOccupant2 setOccupant
  split
  · exact ⟨w1, w2, w3, by simpa using w4⟩
  · exact ⟨w1, w2, w3, w4⟩

lemma isValidLocation_setOccupant2 (b : Board) (r c r' c' : ℤ) (o : Occupant) :
    isValidLocation (setOccupant2 b r c o) r' c' = isValidLocation b r' c' := by
  unfold setOccupant2 setOccupant
  split <;> simp [isValidLocation]

lemma toIndex_setOccupant2 (b : Board) (r c r' c' : ℤ) (o : Occupant) :
    toIndex (setOccupant2 b r c o) r' c' = toIndex b r' c' := by
  unfold setOccupant2 setOccupant
  split <;> simp [toIndex]

/-- Writing a valid cell and reading any location: the written cell reads
back the new value, every other location reads as before. -/
lemma getOccupant_setOccupant2 {b : Board} (hb : b.Wf) {r c : ℤ}
    (hv : isValidLocation b r c = true) (o : Occupant) (r' c' : ℤ) :
    getOccupant (setOccupant2 b r c o) r' c' =
      if toIndex b r' c' = toIndex b r c then some o else getOccupant b r' c' := by
  obtain ⟨hi0, hilen⟩ := toIndex_range hb hv
  have hidx : toIndex (setOccupant2 b r c o) r' c' = toIndex b r' c' :=
    toIndex_setOccupant2 b r c r' c' o
  have htiles : (setOccupant2 b r c o).tiles =
      b.tiles.set (toIndex b r c).toNat o := by
    unfold setOccupant2 setOccupant
    rw [if_pos hv]
  unfold getOccupant
  rw [hidx, htiles]
  by_cases heq : toIndex b r' c' = toIndex b r c
  · rw [if_pos heq, heq, if_pos hi0]
    exact List.getElem?_set_self (by omega)
  · rw [if_neg heq]
    by_cases h0' : 0 ≤ toIndex b r' c'
    · rw [if_pos h0', if_pos h0']
      exact List.getElem?_set_ne (by omega)
    · rw [if_neg h0', if_neg h0']

/-- C3: on a valid location, `setOccupant` succeeds and a subsequent
`getOccupant` at the same location returns the written occupant; on an
invalid location, `setOccupant` throws the invalid-location error with the
board (hence every cell) exactly as it was. -/
theorem setOccupant_get_back {b : Board} (hb : b.Wf) (r c : ℤ) (o : Occupant) :
    (isValidLocation b r c = true →
      (setOccupant b r c o).1 = none ∧
      getOccupant (setOccupant2 b r c o) r c = some o) ∧
    (isValidLocation b r c = false →
      (setOccupant b r c o).1 = some "setOccupant: Invalid location" ∧
      (setOccupant b r c o).2 = b) := by
  constructor
  · intro hv
    refine ⟨by simp [setOccupant, hv], ?_⟩
    rw [getOccupant_setOccupant2 hb hv o r c, if_pos rfl]
  · intro hv
    unfold setOccupant
    rw [if_neg (by simp [hv])]
    exact ⟨rfl, rfl⟩

theorem setOccupant_get_back_witness :
    (mkBoard 4).Wf ∧
    ((isValidLocation (mkBoard 4) 1 1 = true →
      (setOccupant (mkBoard 4) 1 1 Occupant.player1).1 = none ∧
      getOccupant (setOccupant2 (mkBoard 4) 1 1 Occupant.player1) 1 1 =
        some Occupant.player1) ∧
    (isValidLocation (mkBoard 4) 1 1 = false →
      (setOccupant (mkBoard 4) 1 1 Occupant.player1).1 =
        some "setOccupant: Invalid location" ∧
      (setOccupant (mkBoard 4) 1 1 Occupant.player1).2 = mkBoard 4)) :=
  ⟨by decide, setOccupant_get_back (mkBoard_wf 4) 1 1 Occupant.player1⟩

/-- C8 counterexample: on `Board(4)`, `(0,1)` is invalid, yet after writing
`PLAYER_1` into the valid cell `(2,1)` (which shares linear index 1),
`getOccupant(0,1)` returns that other cell's occupant instead of an absent
value. -/
theorem getOccupant_invalid_aliases :
    isValidLocation (mkBoard 4) 0 1 = false ∧
    isValidLocation (mkBoard 4) 2 1 = true ∧
    getOccupant (setOccupant2 (mkBoard 4) 2 1 Occupant.player1) 0 1 =
      some Occupant.player1 := by
  decide

/-- C8 amended: `getOccupant` on an invalid `(r,c)` never faults; it
returns an absent value exactly when the computed linear index falls
outside the store, and otherwise returns the occupant of the unique valid
cell sharing that linear index (so it can observe another cell's value). -/
theorem getOccupant_invalid (b : Board) (hb : b.Wf) (r c : ℤ)
    (hv : isValidLocation b r c = false) :
    (toIndex b r c < 0 ∨ (b.tiles.length : ℤ) ≤ toIndex b r c →
      getOccupant b r c = none) ∧
    (0 ≤ toIndex b r c → toIndex b r c < (b.tiles.length : ℤ) →
      ∃ r' c' : ℤ, isValidLocation b r' c' = true ∧
        toIndex b r' c' = toIndex b r c ∧
        getOccupant b r c = getOccupant b r' c') := by
  constructor
  · intro hrange
    unfold getOccupant
    rcases hrange with hneg | hbig
    · rw [if_neg (by omega)]
    · by_cases h0 : 0 ≤ toIndex b r c
      · rw [if_pos h0]
        exact List.getElem?_eq_none (by omega)
      · rw [if_neg h0]
  · intro h0 hlen
    obtain ⟨r', c', hv', heq⟩ := toIndex_surj hb h0 hlen
    exact ⟨r', c', hv', heq, by unfold getOccupant; rw [heq]⟩

/-! ## The disjoint-set forest

JavaScript `undefined` appears in two roles here: an erased/absorbed entry
of `sets`/`metadata` (stored `none`), and reads past the end of the arrays
(`none` from `jsGet`).  `findRoot` on an id whose entry is `undefined`
recurses once on `undefined` and returns `undefined` — inlined below as
the `none` branch — and writes `undefined` back into the entry.  Writes at
out-of-range indices are modelled as no-ops (JavaScript grows the array,
but every later in-range read is unaffected). -/

/-- Per-node metadata `{ size, color }`; `color` is the raw value
`colors[i]` from the constructor, hence possibly `undefined`. -/
structure DSMeta : Type where
  size : ℕ
  color : Option Occupant
deriving DecidableEq, Repr

structure DisjointSet : Type where
  sets : List (Option ℕ)
  metadata : List (Option DSMeta)
deriving DecidableEq, Repr

/-- A JavaScript array read `arr[i]` on an array whose entries may
themselves be `undefined`: out of range and erased entries both read as
`undefined`. -/
def jsGet {α : Type} (l : List (Option α)) (i : ℕ) : Option α := (l[i]?).join

/-- `new DisjointSet(size, colors)`. -/
def mkDS (size : ℕ) (colors : List Occupant) : DisjointSet :=
  { sets := (List.range size).map some
    metadata := (List.range size).map fun i => some ⟨1, colors[i]?⟩ }

/-- `DisjointSet.findRoot(id)` with explicit fuel (the source recursion has
no structural bound; fuel `universeSize + 1` always suffices on reachable
states, as proved below).  Returns the JavaScript return value (possibly
`undefined`) and the compressed parent array. -/
def findRootF : ℕ → List (Option ℕ) → ℕ → Option (Option ℕ × List (Option ℕ))
  | 0, _, _ => none
  | fuel + 1, sets, id =>
    match jsGet sets id with
    | none => some (none, sets.set id none)
    | some v =>
      if v = id then some (some id, sets)
      else
        match findRootF fuel sets v with
        | none => none
        | some (root, sets') => some (root, sets'.set id root)

/-- `DisjointSet.union(id1, id2)`.  `Except.error` is the runtime
`TypeError` thrown by `this.metadata[root].size` when a root lookup
produced `undefined` or its metadata slot is `undefined`. -/
def unionF (fuel : ℕ) (ds : DisjointSet) (id1 id2 : ℕ) :
    Option (Except Unit DisjointSet) :=
  match findRootF fuel ds.sets id1 with
  | none => none
  | some (root1, s1) =>
    match findRootF fuel s1 id2 with
    | none => none
    | some (root2, s2) =>
      if root1 = root2 then some (Except.ok { ds with sets := s2 })
      else
        match root1, root2 with
        | some r1, some r2 =>
          match jsGet ds.metadata r1, jsGet ds.metadata r2 with
          | some m1, some m2 =>
            if m1.size < m2.size then
              some (Except.ok
                { sets := s2.set r1 (some r2)
                  metadata := (ds.metadata.set r2
                    (some ⟨m2.size + m1.size, m2.color⟩)).set r1 none })
            else
              some (Except.ok
                { sets := s2.set r2 (some r1)
                  metadata := (ds.metadata.set r1
                    (some ⟨m1.size + m2.size, m1.color⟩)).set r2 none })
          | _, _ => some (Except.error ())
        | _, _ => some (Except.error ())

/-- `DisjointSet.eraseNode(id)`. -/
def eraseNode (ds : DisjointSet) (id : ℕ) : DisjointSet :=
  { sets := ds.sets.set id none, metadata := ds.metadata.set id none }

/-- The parent function induced by the `sets` array (identity off the
defined entries; only consulted under the invariant, where every live
entry is a number). -/
def parOf (sets : List (Option ℕ)) (i : ℕ) : ℕ := (jsGet sets i).getD i

/-- The root an id resolves to: `universeSize` parent steps (enough on any
reachable state). -/
def rootIdx (sets : List (Option ℕ)) (n i : ℕ) : ℕ := (parOf sets)^[n] i

/-- The sequence of successful in-range `union` calls performed by a
client, each with the fuel that the invariant guarantees suffices. -/
def applyUnions (n : ℕ) (ds : DisjointSet) : List (ℕ × ℕ) → Option DisjointSet
  | [] => some ds
  | op :: ops =>
    match unionF (n + 1) ds op.1 op.2 with
    | some (Except.ok ds') => applyUnions n ds' ops
    | _ => none

example : findRootF 3 (mkDS 2 []).sets 5 = some (none, (mkDS 2 []).sets) := by decide

example : unionF 3 (mkDS 2 []) 0 1 = some (Except.ok
    { sets := [some 0, some 0],
      metadata := [some ⟨2, none⟩, none] }) := by rfl

example : applyUnions 3 (mkDS 3 []) [(0, 1), (1, 2)] = some
    { sets := [some 0, some 0, some 0],
      metadata := [some ⟨3, none⟩, none, none] } := by decide

theorem getOccupant_invalid_witness :
    ((mkBoard 4).Wf ∧ isValidLocation (mkBoard 4) 0 1 = false) ∧
    ((toIndex (mkBoard 4) 0 1 < 0 ∨
        ((mkBoard 4).tiles.length : ℤ) ≤ toIndex (mkBoard 4) 0 1 →
      getOccupant (mkBoard 4) 0 1 = none) ∧
    (0 ≤ toIndex (mkBoard 4) 0 1 →
      toIndex (mkBoard 4) 0 1 < ((mkBoard 4).tiles.length : ℤ) →
      ∃ r' c' : ℤ, isValidLocation (mkBoard 4) r' c' = true ∧
        toIndex (mkBoard 4) r' c' = toIndex (mkBoard 4) 0 1 ∧
        getOccupant (mkBoard 4) 0 1 = getOccupant (mkBoard 4) r' c')) :=
  ⟨⟨by decide, by decide⟩, getOccupant_invalid (mkBoard 4) (mkBoard_wf 4) 0 1 (by decide)⟩

example : isValidLocation (mkBoard 2) 1 0 = false := by decide

example : isValidLocation (mkBoard 2) 1 1 = true := by decide

example : boardLocs (mkBoard 4) = [(0,0),(1,0),(1,1),(2,1),(2,2),(3,2)] := by decide

example : boardLocs (mkBoard 3) = [(1,0),(2,1)] := by decide

example : (mkBoard 2).Wf := by decide

/-! ## Union-find invariant -/

lemma jsGet_set {α : Type} (l : List (Option α)) (i j : ℕ) (v : Option α) :
    jsGet (l.set i v) j = if i = j ∧ i < l.length then v else jsGet l j := by
  unfold jsGet
  rw [List.getElem?_set]
  by_cases hij : i = j
  · subst hij
    by_cases hi : i < l.length
    · simp [hi]
    · have h1 : l[i]? = none := List.getElem?_eq_none (by omega)
      simp [hi, h1]
  · simp [hij]

lemma parOf_set_some (l : List (Option ℕ)) (i j r : ℕ) :
    parOf (l.set i (some r)) j =
      if i = j ∧ i < l.length then r else parOf l j := by
  unfold parOf
  rw [jsGet_set]
  split <;> rfl

lemma iter_lt {p : ℕ → ℕ} {n : ℕ} (hmaps : ∀ i < n, p i < n) :
    ∀ (k : ℕ), ∀ i < n, p^[k] i < n := by
  intro k
  induction k with
  | zero => intro i hi; simpa using hi
  | succ k ih =>
    intro i hi
    rw [Function.iterate_succ_apply]
    exact ih (p i) (hmaps i hi)

lemma iter_stable (p : ℕ → ℕ) {i k m : ℕ}
    (hroot : p (p^[k] i) = p^[k] i) (hkm : k ≤ m) : p^[m] i = p^[k] i := by
  have : m = (m - k) + k := by omega
  rw [this, Function.iterate_add_apply]
  exact Function.iterate_fixed hroot _

/-- Core `findRoot` specification, by induction on the fuel: if the parent
chain of `id` reaches a root in `d` steps and the fuel exceeds `d`, the
call succeeds, returns that root, and performs only path compression:
entries are rewritten to point at the returned root, and only for nodes
whose chain passes through it; no root is created or destroyed. -/
lemma findRootF_spec {n : ℕ} :
    ∀ (fuel : ℕ) (sets : List (Option ℕ)) (id d : ℕ),
    sets.length = n →
    (∀ i < n, ∃ j, jsGet sets i = some j ∧ j < n) →
    id < n →
    (parOf sets) ((parOf sets)^[d] id) = (parOf sets)^[d] id →
    d < fuel →
    ∃ sets',
      findRootF fuel sets id = some (some ((parOf sets)^[d] id), sets') ∧
      sets'.length = n ∧
      (∀ i < n, ∃ j, jsGet sets' i = some j ∧ j < n) ∧
      (∀ x, parOf sets' x = parOf sets x ∨
        (parOf sets' x = (parOf sets)^[d] id ∧
          ∃ k, (parOf sets)^[k] x = (parOf sets)^[d] id)) ∧
      (∀ x, parOf sets' x = x ↔ parOf sets x = x) := by
  intro fuel
  induction fuel with
  | zero => intro sets id d _ _ _ _ hd; omega
  | succ fuel ih =>
    intro sets id d hlen hent hid hroot hd
    obtain ⟨j, hj, hjn⟩ := hent id hid
    have hpid : parOf sets id = j := by unfold parOf; rw [hj]; rfl
    have hmaps : ∀ i < n, parOf sets i < n := by
      intro i hi
      obtain ⟨j', hj', hj'n⟩ := hent i hi
      unfold parOf
      rw [hj']
      exact hj'n
    by_cases hji : j = id
    · -- id is already a root: return it, no mutation
      have hpid' : parOf sets id = id := by rw [hpid, hji]
      have hfix : (parOf sets)^[d] id = id := Function.iterate_fixed hpid' d
      refine ⟨sets, ?_, hlen, hent, fun x => Or.inl rfl, fun x => Iff.rfl⟩
      rw [hfix]
      simp only [findRootF, hj, if_pos hji]
    · -- recurse on the parent
      rcases d with _ | d
      · exfalso
        simp only [Function.iterate_zero_apply] at hroot
        rw [hpid] at hroot
        exact hji hroot
      have hroot' : (parOf sets) ((parOf sets)^[d] j) = (parOf sets)^[d] j := by
        have : (parOf sets)^[d+1] id = (parOf sets)^[d] j := by
          rw [Function.iterate_succ_apply, hpid]
        rwa [this] at hroot
      obtain ⟨s₁, hrun, hlen₁, hent₁, hcompat₁, hriff₁⟩ :=
        ih sets j d hlen hent hjn hroot' (by omega)
      have hRdef : (parOf sets)^[d+1] id = (parOf sets)^[d] j := by
        rw [Function.iterate_succ_apply, hpid]
      have hRlt : (parOf sets)^[d] j < n := iter_lt hmaps d j hjn
      have hRroot : parOf sets ((parOf sets)^[d] j) = (parOf sets)^[d] j := hroot'
      have hidlt₁ : id < s₁.length := by omega
      refine ⟨s₁.set id (some ((parOf sets)^[d] j)), ?_, by simpa using hlen₁,
        ?_, ?_, ?_⟩
      · simp only [findRootF, hj, if_neg hji, hrun, hRdef]
      · -- entries stay defined and in range
        intro i hi
        by_cases hii : id = i
        · subst hii
          refine ⟨(parOf sets)^[d] j, ?_, hRlt⟩
          rw [jsGet_set, if_pos ⟨rfl, hidlt₁⟩]
        · obtain ⟨j', hj', hj'n⟩ := hent₁ i hi
          refine ⟨j', ?_, hj'n⟩
          rw [jsGet_set, if_neg (by tauto)]
          exact hj'
      · -- compression-compatibility
        intro x
        by_cases hix : id = x
        · subst hix
          right
          rw [hRdef]
          refine ⟨?_, d + 1, hRdef⟩
          rw [parOf_set_some, if_pos ⟨rfl, hidlt₁⟩]
        · have hpx : parOf (s₁.set id (some ((parOf sets)^[d] j))) x = parOf s₁ x := by
            rw [parOf_set_some, if_neg (by tauto)]
          rcases hcompat₁ x with hsame | ⟨hchg, k, hk⟩
          · left; rw [hpx, hsame]
          · right
            rw [hRdef]
            exact ⟨by rw [hpx, hchg], k, hk⟩
      · -- no root created or destroyed
        intro x
        by_cases hix : id = x
        · subst hix
          rw [parOf_set_some, if_pos ⟨rfl, hidlt₁⟩]
          constructor
          · intro hRid
            exfalso
            rw [hRid] at hRroot
            rw [hpid] at hRroot
            exact hji hRroot
          · intro hidroot
            rw [hpid] at hidroot
            exact absurd hidroot hji
        · rw [parOf_set_some, if_neg (by tauto)]
          exact hriff₁ x

/-- If `q` differs from `p` only by rewriting entries to point at nodes on
their own `p`-chain that are `p`-roots (path compression), and creates or
destroys no root, then every id whose `p`-chain reaches a root has a
`q`-chain reaching the same root at least as fast. -/
lemma compat_root {p q : ℕ → ℕ}
    (hriff : ∀ x, q x = x ↔ p x = x)
    (hchg : ∀ x, q x = p x ∨ (p (q x) = q x ∧ ∃ k, p^[k] x = q x)) :
    ∀ (d i : ℕ), p (p^[d] i) = p^[d] i →
      ∃ e ≤ d, q^[e] i = p^[d] i ∧ q (p^[d] i) = p^[d] i := by
  intro d
  induction d with
  | zero =>
    intro i h
    exact ⟨0, le_refl 0, rfl, (hriff _).2 h⟩
  | succ d ihd =>
    intro i h
    by_cases hri : p i = i
    · have hfix : p^[d+1] i = i := Function.iterate_fixed hri _
      rw [hfix] at h ⊢
      exact ⟨0, Nat.zero_le _, rfl, (hriff _).2 h⟩
    · rcases hchg i with hsame | ⟨hqroot, k, hk⟩
      · have h' : p (p^[d] (p i)) = p^[d] (p i) := by
          rwa [Function.iterate_succ_apply] at h
        obtain ⟨e, he, heq, hqr⟩ := ihd (p i) h'
        refine ⟨e + 1, by omega, ?_, ?_⟩
        · rw [Function.iterate_succ_apply q, Function.iterate_succ_apply p,
            hsame]
          exact heq
        · rw [Function.iterate_succ_apply p]
          exact hqr
      · -- the chain of i reaches the p-root q i in k steps; two p-roots on
        -- the same chain coincide
        have hQeq : p^[d+1] i = q i := by
          by_cases hkd : k ≤ d + 1
          · have : p^[d+1] i = p^[k] i := by
              have h2 : p (p^[k] i) = p^[k] i := by rw [hk]; exact hqroot
              exact iter_stable p h2 hkd
            rw [this, hk]
          · push_neg at hkd
            have : p^[k] i = p^[d+1] i := iter_stable p h (by omega)
            rw [← this, hk]
        refine ⟨1, by omega, ?_, ?_⟩
        · rw [Function.iterate_one, hQeq]
        · rw [hQeq]
          exact (hriff _).2 (by rw [← hQeq] at hqroot; rwa [hQeq] at hqroot)

/-- Transfer of the `n`-step-reachability invariant and of resolved roots
across a path compression. -/
lemma compat_reach {p q : ℕ → ℕ} {n : ℕ}
    (hriff : ∀ x, q x = x ↔ p x = x)
    (hchg : ∀ x, q x = p x ∨ (p (q x) = q x ∧ ∃ k, p^[k] x = q x))
    (hreach : ∀ i < n, p (p^[n] i) = p^[n] i) :
    ∀ i < n, q (q^[n] i) = q^[n] i ∧ q^[n] i = p^[n] i := by
  intro i hi
  obtain ⟨e, hed, heq, hqr⟩ := compat_root hriff hchg n i (hreach i hi)
  have hqroot : q (q^[e] i) = q^[e] i := by rw [heq]; exact hqr
  have hstab : q^[n] i = q^[e] i := iter_stable q hqroot hed
  rw [hstab, heq]
  exact ⟨hqr, rfl⟩

/-- The invariant of every `DisjointSet` state reachable from a fresh
structure by in-range `union` calls: arrays keep their length, every parent
entry is a defined in-range id, every chain reaches a root within
`universeSize` steps, metadata survives exactly at roots, and each root's
recorded size counts the ids resolving to it. -/
structure DSInv (n : ℕ) (ds : DisjointSet) : Prop where
  slen : ds.sets.length = n
  mlen : ds.metadata.length = n
  entries : ∀ i < n, ∃ j, jsGet ds.sets i = some j ∧ j < n
  reach : ∀ i < n, parOf ds.sets (rootIdx ds.sets n i) = rootIdx ds.sets n i
  liveRoot : ∀ i < n, ((jsGet ds.metadata i).isSome ↔ parOf ds.sets i = i)
  sizes : ∀ r, r < n → parOf ds.sets r = r →
    ∃ m, jsGet ds.metadata r = some m ∧
      m.size = ((Finset.range n).filter fun i => rootIdx ds.sets n i = r).card

lemma DSInv.maps {n : ℕ} {ds : DisjointSet} (hinv : DSInv n ds) :
    ∀ i < n, parOf ds.sets i < n := by
  intro i hi
  obtain ⟨j, hj, hjn⟩ := hinv.entries i hi
  unfold parOf
  rw [hj]
  exact hjn

lemma DSInv.rootIdx_lt {n : ℕ} {ds : DisjointSet} (hinv : DSInv n ds) :
    ∀ i < n, rootIdx ds.sets n i < n := fun i hi =>
  iter_lt hinv.maps n i hi

/-- `findRoot` on any invariant-satisfying state with an in-range id:
fuel `n + 1` suffices, the returned root is `rootIdx`, and the invariant,
every id's resolved root, and the root set survive the compression. -/
lemma findRoot_ok {n : ℕ} {ds : DisjointSet} (hinv : DSInv n ds) {id : ℕ}
    (hid : id < n) :
    ∃ sets', findRootF (n + 1) ds.sets id =
        some (some (rootIdx ds.sets n id), sets') ∧
      DSInv n { ds with sets := sets' } ∧
      (∀ i < n, rootIdx sets' n i = rootIdx ds.sets n i) ∧
      (∀ x, parOf sets' x = x ↔ parOf ds.sets x = x) := by
  obtain ⟨sets', hrun, hlen', hent', hcompat', hriff'⟩ :=
    @findRootF_spec n (n + 1) ds.sets id n hinv.slen hinv.entries hid
      (hinv.reach id hid) (by omega)
  have hchg : ∀ x, parOf sets' x = parOf ds.sets x ∨
      (parOf ds.sets (parOf sets' x) = parOf sets' x ∧
        ∃ k, (parOf ds.sets)^[k] x = parOf sets' x) := by
    intro x
    rcases hcompat' x with hsame | ⟨hR, k, hk⟩
    · exact Or.inl hsame
    · right
      rw [hR]
      exact ⟨hinv.reach id hid, k, hk⟩
  have hcr := compat_reach hriff' hchg hinv.reach
  have hrpres : ∀ i < n, rootIdx sets' n i = rootIdx ds.sets n i :=
    fun i hi => (hcr i hi).2
  refine ⟨sets', hrun, ?_, hrpres, hriff'⟩
  refine ⟨hlen', hinv.mlen, hent', ?_, ?_, ?_⟩
  · intro i hi
    have h1 := (hcr i hi).1
    unfold rootIdx at h1 ⊢
    exact h1
  · intro i hi
    rw [hriff' i]
    exact hinv.liveRoot i hi
  · intro r hr hroot
    obtain ⟨m, hm, hsz⟩ := hinv.sizes r hr ((hriff' r).1 hroot)
    refine ⟨m, hm, ?_⟩
    rw [hsz]
    congr 1
    apply Finset.filter_congr
    intro i hi
    rw [hrpres i (Finset.mem_range.1 hi)]

/-- If an id's chain reaches `small` within `n` steps, it already reaches
it in fewer than `n` steps (pigeonhole on the `n + 1` chain nodes). -/
lemma pigeon_chain {p : ℕ → ℕ} {n i small : ℕ}
    (hmaps : ∀ x < n, p x < n) (hi : i < n)
    (hn : p^[n] i = small) : ∃ k < n, p^[k] i = small := by
  have hmapsto : ∀ k ∈ Finset.range (n + 1), p^[k] i ∈ Finset.range n := by
    intro k _
    exact Finset.mem_range.2 (iter_lt hmaps k i hi)
  obtain ⟨a, ha, b, hb, hab, heq⟩ :=
    Finset.exists_ne_map_eq_of_card_lt_of_maps_to
      (by simp : (Finset.range n).card < (Finset.range (n + 1)).card) hmapsto
  rw [Finset.mem_range] at ha hb
  -- order them
  rcases Nat.lt_or_ge a b with hlt | hge
  · refine ⟨n - b + a, by omega, ?_⟩
    have : p^[n - b + a] i = p^[n - b] (p^[a] i) := by
      rw [← Function.iterate_add_apply]
    rw [this, heq, ← Function.iterate_add_apply]
    have : n - b + b = n := by omega
    rw [this, hn]
  · have hlt : b < a := by omega
    refine ⟨n - a + b, by omega, ?_⟩
    have : p^[n - a + b] i = p^[n - a] (p^[b] i) := by
      rw [← Function.iterate_add_apply]
    rw [this, ← heq, ← Function.iterate_add_apply]
    have : n - a + a = n := by omega
    rw [this, hn]

/-- Re-pointing the root `small` at the distinct root `big` keeps every
chain terminating within `n` steps, and re-roots exactly the ids that
resolved to `small`. -/
lemma union_reach {p q : ℕ → ℕ} {n small big : ℕ}
    (hmaps : ∀ x < n, p x < n)
    (hq : ∀ x, q x = if x = small then big else p x)
    (hrs : p small = small) (hrb : p big = big) (hne : small ≠ big)
    (hreach : ∀ i < n, p (p^[n] i) = p^[n] i) :
    ∀ i < n, q (q^[n] i) = q^[n] i ∧
      q^[n] i = (if p^[n] i = small then big else p^[n] i) := by
  have hqbig : q big = big := by rw [hq, if_neg (Ne.symm hne)]; exact hrb
  intro i hi
  by_cases hcase : p^[n] i = small
  · -- the chain reaches small: it now continues one step to big
    have hex : ∃ k, k < n ∧ p^[k] i = small := pigeon_chain hmaps hi hcase
    have hex' : ∃ k, p^[k] i = small := ⟨n, hcase⟩
    classical
    set k₀ := Nat.find hex' with hk₀def
    have hk₀ : p^[k₀] i = small := Nat.find_spec hex'
    have hk₀lt : k₀ < n := by
      obtain ⟨k, hkn, hk⟩ := hex
      exact lt_of_le_of_lt (Nat.find_le hk) hkn
    have hagree : ∀ m ≤ k₀, q^[m] i = p^[m] i := by
      intro m hm
      induction m with
      | zero => rfl
      | succ m ihm =>
        rw [Function.iterate_succ_apply', Function.iterate_succ_apply',
          ihm (by omega), hq]
        rw [if_neg (Nat.find_min hex' (by omega))]
    have hq1 : q^[k₀ + 1] i = big := by
      rw [Function.iterate_succ_apply', hagree k₀ (le_refl _), hk₀, hq,
        if_pos rfl]
    have hstab : q^[n] i = big := by
      have : q (q^[k₀+1] i) = q^[k₀+1] i := by rw [hq1]; exact hqbig
      rw [iter_stable q this (by omega), hq1]
    rw [hstab, if_pos hcase]
    exact ⟨hqbig, rfl⟩
  · -- the chain avoids small entirely
    have hnot : ∀ k, ¬ p^[k] i = small := by
      intro k hcontra
      rcases le_or_lt k n with hkn | hnk
      · have h2 : p (p^[k] i) = p^[k] i := by rw [hcontra]; exact hrs
        exact hcase (by rw [iter_stable p h2 hkn, hcontra])
      · have : p^[k] i = p^[n] i := iter_stable p (hreach i hi) (by omega)
        rw [this] at hcontra
        exact hcase hcontra
    have hagree : ∀ m, q^[m] i = p^[m] i := by
      intro m
      induction m with
      | zero => rfl
      | succ m ihm =>
        rw [Function.iterate_succ_apply', Function.iterate_succ_apply', ihm,
          hq, if_neg (hnot m)]
    rw [hagree n, if_neg hcase]
    refine ⟨?_, rfl⟩
    rw [hq, if_neg (hnot n)]
    exact hreach i hi

/-- The merge step of `union`: re-point root `small` at root `big`, add the
sizes at `big`, drop the bookkeeping at `small`.  Preserves the invariant. -/
lemma union_merge {n : ℕ} {s2 : List (Option ℕ)} {md : List (Option DSMeta)}
    (hinv : DSInv n { sets := s2, metadata := md })
    {small big : ℕ} {ms mb : DSMeta}
    (hsm : small < n) (hbg : big < n) (hne : small ≠ big)
    (hrs : parOf s2 small = small) (hrb : parOf s2 big = big)
    (hms : jsGet md small = some ms) (hmb : jsGet md big = some mb) :
    DSInv n { sets := s2.set small (some big),
              metadata := (md.set big
                (some ⟨mb.size + ms.size, mb.color⟩)).set small none } := by
  classical
  have hslen : s2.length = n := hinv.slen
  have hmlen : md.length = n := hinv.mlen
  have hq : ∀ x, parOf (s2.set small (some big)) x =
      if x = small then big else parOf s2 x := by
    intro x
    rw [parOf_set_some]
    by_cases hx : x = small
    · rw [if_pos ⟨hx.symm, by omega⟩, if_pos hx]
    · rw [if_neg (by tauto), if_neg hx]
  have hur := @union_reach (parOf s2) (parOf (s2.set small (some big)))
    n small big hinv.maps hq hrs hrb hne hinv.reach
  have hroots : ∀ i < n, rootIdx (s2.set small (some big)) n i =
      if rootIdx s2 n i = small then big else rootIdx s2 n i := by
    intro i hi
    exact (hur i hi).2
  have hmd : ∀ i, jsGet ((md.set big
      (some (⟨mb.size + ms.size, mb.color⟩ : DSMeta))).set small none) i =
      if small = i then none
      else if big = i then some ⟨mb.size + ms.size, mb.color⟩
      else jsGet md i := by
    intro i
    rw [jsGet_set, jsGet_set]
    by_cases h1 : small = i
    · rw [if_pos ⟨h1, by rw [List.length_set]; omega⟩, if_pos h1]
    · rw [if_neg (by tauto), if_neg h1]
      by_cases h2 : big = i
      · rw [if_pos ⟨h2, by omega⟩, if_pos h2]
      · rw [if_neg (by tauto), if_neg h2]
  refine ⟨by simpa using hslen, by simpa using hmlen, ?_, ?_, ?_, ?_⟩
  · -- entries
    intro i hi
    by_cases hx : small = i
    · refine ⟨big, ?_, hbg⟩
      rw [jsGet_set, if_pos ⟨hx, by omega⟩]
    · obtain ⟨j, hj, hjn⟩ := hinv.entries i hi
      refine ⟨j, ?_, hjn⟩
      rw [jsGet_set, if_neg (by tauto)]
      exact hj
  · -- reach
    intro i hi
    exact (hur i hi).1
  · -- liveRoot
    intro i hi
    rw [hmd i, hq i]
    by_cases h1 : small = i
    · rw [if_pos h1, if_pos h1.symm]
      simp only [Option.isSome_none]
      constructor
      · intro hfalse
        exact absurd hfalse (by simp)
      · intro hbi
        exact absurd (h1.trans hbi.symm) hne
    · rw [if_neg h1, if_neg (fun hc : i = small => h1 hc.symm)]
      by_cases h2 : big = i
      · rw [if_pos h2]
        constructor
        · intro _
          rw [← h2]
          exact hrb
        · intro _
          rfl
      · rw [if_neg h2]
        exact hinv.liveRoot i hi
  · -- sizes
    intro r hr hroot
    rw [hq r] at hroot
    have hrns : r ≠ small := by
      intro hc
      rw [if_pos hc] at hroot
      exact hne (hc ▸ hroot).symm
    rw [if_neg hrns] at hroot
    rw [hmd r, if_neg (fun hc => hrns hc.symm)]
    by_cases h2 : big = r
    · subst h2
      rw [if_pos rfl]
      refine ⟨⟨mb.size + ms.size, mb.color⟩, rfl, ?_⟩
      obtain ⟨ms', hms', hszs⟩ := hinv.sizes small hsm hrs
      obtain ⟨mb', hmb', hszb⟩ := hinv.sizes big hbg hrb
      rw [hms] at hms'
      rw [hmb] at hmb'
      obtain rfl : ms = ms' := by injection hms'
      obtain rfl : mb = mb' := by injection hmb'
      have hszs' : ms.size =
          ((Finset.range n).filter fun i => rootIdx s2 n i = small).card := hszs
      have hszb' : mb.size =
          ((Finset.range n).filter fun i => rootIdx s2 n i = big).card := hszb
      have hfilt : ((Finset.range n).filter
          fun i => rootIdx (s2.set small (some big)) n i = big) =
          ((Finset.range n).filter fun i =>
            rootIdx s2 n i = small ∨ rootIdx s2 n i = big) := by
        apply Finset.filter_congr
        intro i hi
        rw [hroots i (Finset.mem_range.1 hi)]
        by_cases hc : rootIdx s2 n i = small
        · simp [hc]
        · simp [hc]
      rw [hfilt, Finset.filter_or,
        Finset.card_union_of_disjoint (by
          rw [Finset.disjoint_left]
          intro a ha hb
          rw [Finset.mem_filter] at ha hb
          exact hne (ha.2.symm.trans hb.2))]
      show mb.size + ms.size = _
      omega
    · rw [if_neg h2]
      obtain ⟨m, hm, hsz⟩ := hinv.sizes r hr hroot
      refine ⟨m, hm, ?_⟩
      have hsz' : m.size =
          ((Finset.range n).filter fun i => rootIdx s2 n i = r).card := hsz
      rw [hsz']
      congr 1
      apply Finset.filter_congr
      intro i hi
      rw [hroots i (Finset.mem_range.1 hi)]
      by_cases hc : rootIdx s2 n i = small
      · rw [if_pos hc]
        constructor
        · intro hrr
          exact absurd (hrr.symm.trans hc) hrns
        · intro hbr
          exact absurd hbr h2
      · rw [if_neg hc]

/-- `union` on an invariant-satisfying state with in-range ids succeeds
(fuel `n + 1` for each internal `findRoot`) and preserves the invariant. -/
lemma union_ok {n : ℕ} {ds : DisjointSet} (hinv : DSInv n ds) {id1 id2 : ℕ}
    (h1 : id1 < n) (h2 : id2 < n) :
    ∃ ds', unionF (n + 1) ds id1 id2 = some (Except.ok ds') ∧ DSInv n ds' := by
  obtain ⟨s1, hrun1, hinv1, hrpres1, hriff1⟩ := findRoot_ok hinv h1
  obtain ⟨s2, hrun2, hinv2, hrpres2, hriff2⟩ := findRoot_ok hinv1 h2
  have hR1lt : rootIdx ds.sets n id1 < n := hinv.rootIdx_lt id1 h1
  have hR2lt : rootIdx s1 n id2 < n := hinv1.rootIdx_lt id2 h2
  have hR1root : parOf ds.sets (rootIdx ds.sets n id1) = rootIdx ds.sets n id1 :=
    hinv.reach id1 h1
  have hR2root1 : parOf s1 (rootIdx s1 n id2) = rootIdx s1 n id2 :=
    hinv1.reach id2 h2
  have hR1root2 : parOf s2 (rootIdx ds.sets n id1) = rootIdx ds.sets n id1 :=
    (hriff2 _).2 ((hriff1 _).2 hR1root)
  have hR2root2 : parOf s2 (rootIdx s1 n id2) = rootIdx s1 n id2 :=
    (hriff2 _).2 hR2root1
  by_cases heq : rootIdx ds.sets n id1 = rootIdx s1 n id2
  · refine ⟨{ ds with sets := s2 }, ?_, hinv2⟩
    simp only [unionF, hrun1, hrun2, heq]
    exact if_pos trivial
  · obtain ⟨m1, hm1, -⟩ := hinv.sizes _ hR1lt hR1root
    have hR2rootds : parOf ds.sets (rootIdx s1 n id2) = rootIdx s1 n id2 :=
      (hriff1 _).1 hR2root1
    obtain ⟨m2, hm2', -⟩ := hinv.sizes (rootIdx s1 n id2) hR2lt hR2rootds
    by_cases hsz : m1.size < m2.size
    · have hmerge := union_merge hinv2 hR1lt hR2lt heq hR1root2 hR2root2
        hm1 hm2'
      refine ⟨_, ?_, hmerge⟩
      simp only [unionF, hrun1, hrun2,
        if_neg (fun hc : some (rootIdx ds.sets n id1) =
          some (rootIdx s1 n id2) => heq (by injection hc)), hm1, hm2',
        if_pos hsz]
    · have hmerge := union_merge hinv2 hR2lt hR1lt (Ne.symm heq) hR2root2
        hR1root2 hm2' hm1
      refine ⟨_, ?_, hmerge⟩
      simp only [unionF, hrun1, hrun2,
        if_neg (fun hc : some (rootIdx ds.sets n id1) =
          some (rootIdx s1 n id2) => heq (by injection hc)), hm1, hm2',
        if_neg hsz]

/-- A freshly constructed `DisjointSet` satisfies the invariant (everyone
their own root, every size 1). -/
lemma mkDS_inv (n : ℕ) (colors : List Occupant) : DSInv n (mkDS n colors) := by
  classical
  have hget : ∀ i < n, jsGet (mkDS n colors).sets i = some i := by
    intro i hi
    unfold mkDS jsGet
    simp [List.getElem?_map, List.getElem?_range hi]
  have hpar : ∀ i, parOf (mkDS n colors).sets i = i := by
    intro i
    by_cases hi : i < n
    · unfold parOf
      rw [hget i hi]
      rfl
    · unfold parOf jsGet mkDS
      simp only
      rw [List.getElem?_eq_none (by simpa using by omega)]
      rfl
  have hroot : ∀ i, rootIdx (mkDS n colors).sets n i = i := by
    intro i
    exact Function.iterate_fixed (hpar i) n
  have hmget : ∀ i < n, jsGet (mkDS n colors).metadata i =
      some ⟨1, colors[i]?⟩ := by
    intro i hi
    unfold mkDS jsGet
    simp [List.getElem?_map, List.getElem?_range hi]
  refine ⟨by simp [mkDS], by simp [mkDS], ?_, ?_, ?_, ?_⟩
  · intro i hi
    exact ⟨i, hget i hi, hi⟩
  · intro i hi
    rw [hroot i]
    exact hpar _
  · intro i hi
    rw [hmget i hi, hpar i]
    simp
  · intro r hr _
    refine ⟨⟨1, colors[r]?⟩, hmget r hr, ?_⟩
    have : ((Finset.range n).filter fun i =>
        rootIdx (mkDS n colors).sets n i = r) = {r} := by
      ext a
      simp only [Finset.mem_filter, Finset.mem_range, Finset.mem_singleton,
        hroot]
      constructor
      · exact fun h => h.2
      · rintro rfl
        exact ⟨hr, rfl⟩
    rw [this, Finset.card_singleton]

/-- Applying any list of in-range `union`s preserves the invariant and
never fails. -/
lemma applyUnions_inv {n : ℕ} :
    ∀ (ops : List (ℕ × ℕ)) (ds : DisjointSet), DSInv n ds →
    (∀ p ∈ ops, p.1 < n ∧ p.2 < n) →
    ∃ ds', applyUnions n ds ops = some ds' ∧ DSInv n ds' := by
  intro ops
  induction ops with
  | nil =>
    intro ds hinv _
    exact ⟨ds, rfl, hinv⟩
  | cons op ops ih =>
    intro ds hinv hops
    obtain ⟨h1, h2⟩ := hops op (by simp)
    obtain ⟨ds1, hrun, hinv1⟩ := union_ok hinv h1 h2
    obtain ⟨ds', hrun', hinv'⟩ := ih ds1 hinv1
      (fun p hp => hops p (by simp [hp]))
    refine ⟨ds', ?_, hinv'⟩
    simp only [applyUnions, hrun]
    exact hrun'

/-- C2: after any sequence of in-range `union` calls on a freshly
constructed `DisjointSet` of universe size `n` (fuel `n + 1` per internal
`findRoot`, which the proof shows is never exhausted): the whole sequence
succeeds; for every `id < n`, `findRoot(id)` terminates and returns the
resolved root `rootIdx`, re-running `findRoot` on that result returns the
same root with the state unchanged (idempotence); and the size recorded at
each surviving root (i.e. each id whose metadata survives) is exactly the
number of ids in `[0, n)` that resolve to it. -/
theorem unionFind_invariant (n : ℕ) (colors : List Occupant)
    (ops : List (ℕ × ℕ)) (hops : ∀ p ∈ ops, p.1 < n ∧ p.2 < n) :
    ∃ ds, applyUnions n (mkDS n colors) ops = some ds ∧
      (∀ id < n, ∃ sets',
        findRootF (n + 1) ds.sets id =
          some (some (rootIdx ds.sets n id), sets') ∧
        findRootF (n + 1) sets' (rootIdx ds.sets n id) =
          some (some (rootIdx ds.sets n id), sets')) ∧
      (∀ r < n, (jsGet ds.metadata r).isSome →
        ∃ m, jsGet ds.metadata r = some m ∧
          m.size = ((Finset.range n).filter
            fun i => rootIdx ds.sets n i = r).card) := by
  obtain ⟨ds, hrun, hinv⟩ := applyUnions_inv ops (mkDS n colors)
    (mkDS_inv n colors) hops
  refine ⟨ds, hrun, ?_, ?_⟩
  · intro id hid
    obtain ⟨sets', hfr, hinv', hrpres, hriff⟩ := findRoot_ok hinv hid
    refine ⟨sets', hfr, ?_⟩
    -- the returned root is a root of the compressed state, so a second
    -- call returns immediately without further mutation
    have hRlt : rootIdx ds.sets n id < n := hinv.rootIdx_lt id hid
    have hRroot : parOf sets' (rootIdx ds.sets n id) = rootIdx ds.sets n id :=
      (hriff _).2 (hinv.reach id hid)
    obtain ⟨j, hj, _⟩ := hinv'.entries (rootIdx ds.sets n id) hRlt
    have hjr : j = rootIdx ds.sets n id := by
      have : parOf sets' (rootIdx ds.sets n id) = j := by
        unfold parOf
        rw [hj]
        rfl
      rw [this] at hRroot
      exact hRroot
    subst hjr
    simp only [findRootF, hj]
    exact if_pos trivial
  · intro r hr hsome
    have hroot : parOf ds.sets r = r := (hinv.liveRoot r hr).1 hsome
    exact hinv.sizes r hr hroot

theorem unionFind_invariant_witness :
    (∀ p ∈ [((0 : ℕ), (1 : ℕ)), (2, 0)], p.1 < 3 ∧ p.2 < 3) ∧
    (∃ ds, applyUnions 3 (mkDS 3 [Occupant.player1, Occupant.player1,
        Occupant.player1]) [(0, 1), (2, 0)] = some ds ∧
      (∀ id < 3, ∃ sets',
        findRootF 4 ds.sets id = some (some (rootIdx ds.sets 3 id), sets') ∧
        findRootF 4 sets' (rootIdx ds.sets 3 id) =
          some (some (rootIdx ds.sets 3 id), sets')) ∧
      (∀ r < 3, (jsGet ds.metadata r).isSome →
        ∃ m, jsGet ds.metadata r = some m ∧
          m.size = ((Finset.range 3).filter
            fun i => rootIdx ds.sets 3 i = r).card)) :=
  ⟨by decide, unionFind_invariant 3 _ _ (by decide)⟩

/-! ## Disjoint-set error behavior on out-of-range ids -/

/-- C9 counterexample: on a fresh two-element `DisjointSet`, `findRoot(5)`
does not fail: it completes and returns `undefined` (the recursion hits
`sets[5] = undefined`, recurses once on `undefined`, and unwinds), leaving
the parent array observably unchanged; and `eraseNode(5)` completes
silently as a no-op.  Neither signals any error. -/
theorem dsOps_out_of_range_silent :
    findRootF 3 (mkDS 2 [Occupant.nobody, Occupant.nobody]).sets 5 =
      some (none, (mkDS 2 [Occupant.nobody, Occupant.nobody]).sets) ∧
    eraseNode (mkDS 2 [Occupant.nobody, Occupant.nobody]) 5 =
      mkDS 2 [Occupant.nobody, Occupant.nobody] := by
  constructor
  · rfl
  · unfold eraseNode mkDS
    simp [List.set_eq_of_length_le]

/-- C9 amended: on an out-of-range id, `findRoot` completes silently and
returns `undefined` with the array observably unchanged, and `eraseNode`
completes silently as a no-op; `union` does throw a `TypeError` when
exactly one looked-up root is `undefined` (out-of-range first id against
an in-range second id on a fresh structure), but completes silently as a
no-op when both ids are out of range. -/
theorem dsOps_out_of_range (n : ℕ) (colors : List Occupant)
    (sets : List (Option ℕ)) (md : List (Option DSMeta))
    (id id1 id2 : ℕ) (fuel : ℕ) (hfuel : 1 ≤ fuel)
    (hid : sets.length ≤ id) (hid1 : n ≤ id1) (hid2lt : id2 < n)
    (hmd : md.length ≤ id) :
    findRootF fuel sets id = some (none, sets) ∧
    eraseNode { sets := sets, metadata := md } id =
      { sets := sets, metadata := md } ∧
    unionF (n + 1) (mkDS n colors) id1 id2 = some (Except.error ()) ∧
    (mkDS n colors).sets.length ≤ id1 := by
  have hjsnone : jsGet sets id = none := by
    unfold jsGet
    rw [List.getElem?_eq_none hid]
    rfl
  refine ⟨?_, ?_, ?_, ?_⟩
  · rcases fuel with _ | fuel
    · omega
    · simp only [findRootF, hjsnone, List.set_eq_of_length_le hid]
  · unfold eraseNode
    simp [List.set_eq_of_length_le, hid, hmd]
  · -- union: first root is undefined, second a number, so the metadata
    -- access `metadata[undefined].size` throws
    have hinv := mkDS_inv n colors
    have hlen : (mkDS n colors).sets.length = n := hinv.slen
    have hjs1 : jsGet (mkDS n colors).sets id1 = none := by
      unfold jsGet
      rw [List.getElem?_eq_none (by omega)]
      rfl
    have hfr1 : findRootF (n + 1) (mkDS n colors).sets id1 =
        some (none, (mkDS n colors).sets) := by
      simp only [findRootF, hjs1, List.set_eq_of_length_le (by omega :
        (mkDS n colors).sets.length ≤ id1)]
    obtain ⟨s2, hfr2, hinv2, hrpres2, hriff2⟩ := findRoot_ok hinv hid2lt
    simp only [unionF, hfr1, hfr2]
    rw [if_neg (by simp)]
  · have hlen : (mkDS n colors).sets.length = n := (mkDS_inv n colors).slen
    omega

/-! ## Entropy, the reservoir sampler, and the step state machine -/

/-- The injected entropy source: the stream of `Math.random()` draws
(exact rationals; the `k`-th call reads `rand k`) together with the
`Math.pow` and `Math.log` implementations, left abstract so every theorem
holds for whatever values the floating-point library produces. -/
structure Entropy : Type where
  rand : ℕ → ℚ
  pow : ℚ → ℚ → ℚ
  log : ℚ → ℚ

/-- `ESSampler` state: the reservoir (at most one `{ item, score }`) and
the accumulated skip weight. -/
structure ESSampler : Type where
  reservoir : Option ((ℕ × ℕ) × ℚ)
  skipWeight : ℚ

/-- `ESSampler.insert(item, weight)`; `k` indexes the next unread entropy
draw, and is threaded through. -/
def ESSampler.insert (E : Entropy) (s : ESSampler) (k : ℕ)
    (item : ℕ × ℕ) (weight : ℚ) : ESSampler × ℕ :=
  match s.reservoir with
  | none =>
    let score := E.pow (E.rand k) (1 / weight)
    ({ reservoir := some (item, score)
       skipWeight := E.log (E.rand (k + 1)) / E.log score }, k + 2)
  | some (_, score0) =>
    let sw := s.skipWeight - weight
    if sw ≤ 0 then
      let t := E.pow score0 weight
      let adjusted := E.rand k * (1 - t) + t
      let score := E.pow adjusted (1 / weight)
      ({ reservoir := some (item, score)
         skipWeight := E.log (E.rand (k + 1)) / E.log score }, k + 2)
    else
      ({ s with skipWeight := sw }, k)

/-- `ESSampler.getResult()`: the held item, if any. -/
def ESSampler.getResult (s : ESSampler) : Option (ℕ × ℕ) :=
  s.reservoir.map Prod.fst

/-- The game's mutable globals: the board and `currentPlayer`
(`1`, `2`, or `3` for finished). -/
structure GameState : Type where
  board : Board
  currentPlayer : ℕ
deriving Repr

/-- The `'click'` event case of `step`, after screen-to-tile conversion
has produced the candidate `(r, c)`: only during player 1's turn, only on
a valid location whose occupant is a (defined) `NOBODY`; everything else
is silently dropped. -/
def processClick (s : GameState) (r c : ℤ) : GameState :=
  if s.currentPlayer = 1 then
    if isValidLocation s.board r c then
      match getOccupant s.board r c with
      | some Occupant.nobody =>
          { board := setOccupant2 s.board r c Occupant.player1
            currentPlayer := 2 }
      | _ => s
    else s
  else s

/-- The cells the AI-turn loop feeds to the sampler: the `forEach` order
restricted to tiles reading `NOBODY`. -/
def emptyCells (b : Board) : List (ℕ × ℕ) :=
  (boardLocs b).filter fun rc =>
    decide (getOccupant b (rc.1 : ℤ) (rc.2 : ℤ) = some Occupant.nobody)

/-- The AI-turn block of `step`: when `currentPlayer = 2`, run a fresh
sampler over the empty cells with unit weights; place `PLAYER_2` on the
result and hand the turn back, or transition to the terminal state `3`
when no item came back. -/
def aiTurn (E : Entropy) (s : GameState) (k : ℕ) : GameState × ℕ :=
  if s.currentPlayer = 2 then
    let res := (emptyCells s.board).foldl
      (fun (acc : ESSampler × ℕ) rc => ESSampler.insert E acc.1 acc.2 rc 1)
      ({ reservoir := none, skipWeight := 0 }, k)
    match res.1.getResult with
    | some rc =>
        ({ board := setOccupant2 s.board (rc.1 : ℤ) (rc.2 : ℤ) Occupant.player2
           currentPlayer := 1 }, res.2)
    | none => ({ s with currentPlayer := 3 }, res.2)
  else (s, k)

/-- Occupancy count over the `forEach` enumeration (on an even-row board
this is exactly the count over valid cells). -/
def countOcc (b : Board) (o : Occupant) : ℕ :=
  (boardLocs b).countP fun rc =>
    decide (getOccupant b (rc.1 : ℤ) (rc.2 : ℤ) = some o)

/-- Accumulator of the `'randomize'` loop: the board being written, the
remaining quota of each color, and the entropy cursor. -/
structure RandAcc : Type where
  board : Board
  p1rem : ℚ
  p2rem : ℚ
  k : ℕ

/-- One iteration of the `'randomize'` loop: draw, compare against
`p1rem / (p1rem + p2rem)`, place, decrement that quota. -/
def randStep (E : Entropy) (acc : RandAcc) (rc : ℕ × ℕ) : RandAcc :=
  let p1cut := acc.p1rem / (acc.p1rem + acc.p2rem)
  if E.rand acc.k < p1cut then
    { board := setOccupant2 acc.board (rc.1 : ℤ) (rc.2 : ℤ) Occupant.player1
      p1rem := acc.p1rem - 1
      p2rem := acc.p2rem
      k := acc.k + 1 }
  else
    { board := setOccupant2 acc.board (rc.1 : ℤ) (rc.2 : ℤ) Occupant.player2
      p1rem := acc.p1rem
      p2rem := acc.p2rem - 1
      k := acc.k + 1 }

/-- The `'randomize'` event case of `step`: split the tile count in half
(JavaScript `/` keeps the exact quotient), clear the board, then assign
every `forEach` cell by a quota-weighted draw.  `currentPlayer` is not
touched. -/
def processRandomize (E : Entropy) (s : GameState) (k : ℕ) :
    GameState × ℕ :=
  let total : ℚ := (s.board.tiles.length : ℚ)
  let res := (boardLocs s.board.clear).foldl (randStep E)
    { board := s.board.clear
      p1rem := total / 2
      p2rem := total - total / 2
      k := k }
  ({ s with board := res.board }, res.k)

lemma clear_fields (b : Board) :
    b.clear.nrows = b.nrows ∧ b.clear.ncols = b.ncols ∧
    b.clear.matWidth = b.matWidth ∧ b.clear.matHeight = b.matHeight ∧
    b.clear.cachedScores = none := ⟨rfl, rfl, rfl, rfl, rfl⟩


lemma foldl_set_length (f : ℕ × ℕ → ℕ) (v : Occupant) :
    ∀ (L : List (ℕ × ℕ)) (t : List Occupant),
    (L.foldl (fun tt rc => tt.set (f rc) v) t).length = t.length := by
  intro L
  induction L with
  | nil => intro t; rfl
  | cons hd tl ih =>
    intro t
    rw [List.foldl_cons, ih, List.length_set]

lemma foldl_set_read (f : ℕ × ℕ → ℕ) (v : Occupant) :
    ∀ (L : List (ℕ × ℕ)) (t : List Occupant) (j : ℕ),
    (L.foldl (fun tt rc => tt.set (f rc) v) t)[j]? =
      if (∃ rc ∈ L, f rc = j) ∧ j < t.length then some v else t[j]? := by
  intro L
  induction L with
  | nil =>
    intro t j
    simp
  | cons hd tl ih =>
    intro t j
    rw [List.foldl_cons, ih, List.length_set, List.getElem?_set]
    by_cases hlen : j < t.length
    · by_cases htl : ∃ rc ∈ tl, f rc = j
      · obtain ⟨rc, hrc, hfrc⟩ := htl
        rw [if_pos ⟨⟨rc, hrc, hfrc⟩, hlen⟩,
          if_pos ⟨⟨rc, List.mem_cons_of_mem hd hrc, hfrc⟩, hlen⟩]
      · rw [if_neg (fun hc => htl hc.1)]
        by_cases hf : f hd = j
        · rw [if_pos hf, if_pos (by omega),
            if_pos ⟨⟨hd, List.mem_cons_self hd tl, hf⟩, hlen⟩]
        · rw [if_neg hf]
          by_cases hcons : ∃ rc ∈ hd :: tl, f rc = j
          · exfalso
            obtain ⟨rc, hrc, hfrc⟩ := hcons
            rcases List.mem_cons.1 hrc with rfl | hmem
            · exact hf hfrc
            · exact htl ⟨rc, hmem, hfrc⟩
          · rw [if_neg (fun hc => hcons hc.1)]
    · have hno1 : ¬((∃ rc ∈ tl, f rc = j) ∧ j < t.length) :=
        fun hc => hlen hc.2
      have hno2 : ¬((∃ rc ∈ hd :: tl, f rc = j) ∧ j < t.length) :=
        fun hc => hlen hc.2
      rw [if_neg hno1, if_neg hno2]
      by_cases hf : f hd = j
      · rw [if_pos hf, if_neg (show ¬ f hd < t.length by omega),
          List.getElem?_eq_none (by omega)]
      · rw [if_neg hf]

lemma boardLocs_clear (b : Board) : boardLocs b.clear = boardLocs b :=
  boardLocs_ext rfl rfl rfl

lemma clear_tiles_length (b : Board) :
    b.clear.tiles.length = b.tiles.length :=
  foldl_set_length _ Occupant.nobody (boardLocs b) b.tiles

lemma clear_wf {b : Board} (hb : b.Wf) : b.clear.Wf := by
  obtain ⟨w1, w2, w3, w4⟩ := hb
  exact ⟨w1, w2, w3, by rw [clear_tiles_length]; exact w4⟩

lemma toIndex_clear (b : Board) (r c : ℤ) :
    toIndex b.clear r c = toIndex b r c := rfl

/-- After `clear`, every cell that `forEach` visits reads `NOBODY`. -/
lemma getOccupant_clear {b : Board} (hb : b.Wf) {r c : ℕ}
    (hmem : (r, c) ∈ boardLocs b) :
    getOccupant b.clear (r : ℤ) (c : ℤ) = some Occupant.nobody := by
  have hv := boardLocs_valid hb hmem
  obtain ⟨hi0, hilen⟩ := toIndex_range hb hv
  unfold getOccupant
  rw [toIndex_clear, if_pos hi0]
  show ((boardLocs b).foldl _ b.tiles)[(toIndex b r c).toNat]? = _
  rw [foldl_set_read (fun rc => (toIndex b (rc.1 : ℤ) (rc.2 : ℤ)).toNat)
    Occupant.nobody (boardLocs b) b.tiles]
  rw [if_pos ⟨⟨(r, c), hmem, rfl⟩, by omega⟩]

lemma countOcc_clear {b : Board} (hb : b.Wf) {o : Occupant}
    (ho : o ≠ Occupant.nobody) : countOcc b.clear o = 0 := by
  unfold countOcc
  rw [boardLocs_clear]
  apply List.countP_eq_zero.2
  rintro ⟨r, c⟩ hmem
  rw [getOccupant_clear hb hmem]
  simp only [decide_eq_true_eq]
  intro hc
  exact ho (by injection hc.symm)

/-- One `insert` always leaves an item in the reservoir. -/
lemma insert_isSome (E : Entropy) (s : ESSampler) (k : ℕ) (it : ℕ × ℕ)
    (w : ℚ) : ((ESSampler.insert E s k it w).1).reservoir.isSome = true := by
  unfold ESSampler.insert
  match hres : s.reservoir with
  | none => rfl
  | some pair =>
    simp only
    split
    · rfl
    · simp [hres]

/-- After folding `insert` over a list, the reservoir holds an item as
soon as the initial state held one or the list is nonempty. -/
lemma fold_insert_isSome (E : Entropy) :
    ∀ (l : List (ℕ × ℕ)) (acc : ESSampler × ℕ),
    (acc.1.reservoir.isSome = true ∨ l ≠ []) →
    ((l.foldl (fun (acc : ESSampler × ℕ) rc =>
      ESSampler.insert E acc.1 acc.2 rc 1) acc).1).reservoir.isSome = true := by
  intro l
  induction l with
  | nil =>
    intro acc h
    rcases h with h | h
    · exact h
    · exact absurd rfl h
  | cons hd tl ih =>
    intro acc _
    rw [List.foldl_cons]
    exact ih _ (Or.inl (insert_isSome E acc.1 acc.2 hd 1))

/-- The item held after folding `insert`s is either the initially held
item or one of the inserted ones. -/
lemma fold_insert_mem (E : Entropy) :
    ∀ (l : List (ℕ × ℕ)) (acc : ESSampler × ℕ) (it : ℕ × ℕ) (sc : ℚ),
    ((l.foldl (fun (acc : ESSampler × ℕ) rc =>
      ESSampler.insert E acc.1 acc.2 rc 1) acc).1).reservoir = some (it, sc) →
    (∃ sc₀, acc.1.reservoir = some (it, sc₀)) ∨ it ∈ l := by
  intro l
  induction l with
  | nil =>
    intro acc it sc h
    exact Or.inl ⟨sc, h⟩
  | cons hd tl ih =>
    intro acc it sc h
    rw [List.foldl_cons] at h
    rcases ih _ it sc h with ⟨sc₀, hres⟩ | hmem
    · -- analyze the single insert of hd
      unfold ESSampler.insert at hres
      match hres0 : acc.1.reservoir with
      | none =>
        rw [hres0] at hres
        simp only at hres
        have heq : hd = it := by
          have h1 := congrArg (Option.map Prod.fst) hres
          simpa using h1
        exact Or.inr (List.mem_cons.2 (Or.inl heq.symm))
      | some pair =>
        rw [hres0] at hres
        simp only at hres
        split at hres
        · have heq : hd = it := by
            have h1 := congrArg (Option.map Prod.fst) hres
            simpa using h1
          exact Or.inr (List.mem_cons.2 (Or.inl heq.symm))
        · exact Or.inl ⟨sc₀, hres⟩
    · exact Or.inr (List.mem_cons_of_mem hd hmem)

/-- C4: the turn-controller step.  (a) In state 1, a placement command at a
valid Empty cell occupies it as `PLAYER_1` and moves to state 2.  (b) In
state 2 on a board (the game board: well-formed, even row count) with at
least one Empty valid cell, the AI turn ends in state 1 having turned
exactly one previously-Empty valid cell into `PLAYER_2` and touched no
other cell, for every entropy source.  (c) In state 2 with no Empty cell,
the sampler is fed zero items, `getResult` yields no item, the state
becomes the terminal 3, and the board is untouched. -/
theorem turn_controller_step (E : Entropy) (s : GameState) (k : ℕ)
    (hb : s.board.Wf) :
    (∀ r c : ℤ, s.currentPlayer = 1 → isValidLocation s.board r c = true →
      getOccupant s.board r c = some Occupant.nobody →
      processClick s r c =
        { board := setOccupant2 s.board r c Occupant.player1
          currentPlayer := 2 } ∧
      getOccupant (processClick s r c).board r c = some Occupant.player1) ∧
    (s.currentPlayer = 2 → s.board.nrows % 2 = 0 →
      (∃ r c : ℕ, isValidLocation s.board (r : ℤ) (c : ℤ) = true ∧
        getOccupant s.board (r : ℤ) (c : ℤ) = some Occupant.nobody) →
      (aiTurn E s k).1.currentPlayer = 1 ∧
      (∃ r c : ℕ, isValidLocation s.board (r : ℤ) (c : ℤ) = true ∧
        getOccupant s.board (r : ℤ) (c : ℤ) = some Occupant.nobody ∧
        (aiTurn E s k).1.board =
          setOccupant2 s.board (r : ℤ) (c : ℤ) Occupant.player2 ∧
        getOccupant (aiTurn E s k).1.board (r : ℤ) (c : ℤ) =
          some Occupant.player2 ∧
        (∀ r' c' : ℤ, toIndex s.board r' c' ≠ toIndex s.board (r : ℤ) (c : ℤ) →
          getOccupant (aiTurn E s k).1.board r' c' =
            getOccupant s.board r' c'))) ∧
    (s.currentPlayer = 2 →
      (∀ r c : ℕ, (r, c) ∈ boardLocs s.board →
        getOccupant s.board (r : ℤ) (c : ℤ) ≠ some Occupant.nobody) →
      emptyCells s.board = [] ∧
      (ESSampler.getResult { reservoir := none, skipWeight := 0 }) = none ∧
      aiTurn E s k = ({ s with currentPlayer := 3 }, k) ∧
      (aiTurn E s k).1.board = s.board) := by
  refine ⟨?_, ?_, ?_⟩
  · -- (a) human placement
    intro r c h1 hval hemp
    have hstep : processClick s r c =
        { board := setOccupant2 s.board r c Occupant.player1
          currentPlayer := 2 } := by
      unfold processClick
      rw [if_pos h1, if_pos hval, hemp]
    refine ⟨hstep, ?_⟩
    rw [hstep]
    show getOccupant (setOccupant2 s.board r c Occupant.player1) r c = _
    rw [getOccupant_setOccupant2 hb hval Occupant.player1 r c, if_pos rfl]
  · -- (b) AI placement
    intro h2 heven hex
    obtain ⟨r₀, c₀, hv₀, ho₀⟩ := hex
    have hmem₀ : (r₀, c₀) ∈ emptyCells s.board := by
      unfold emptyCells
      rw [List.mem_filter]
      exact ⟨(mem_boardLocs_iff_valid hb heven r₀ c₀).2 hv₀, by simp [ho₀]⟩
    have hne : emptyCells s.board ≠ [] := List.ne_nil_of_mem hmem₀
    have hsome := fold_insert_isSome E (emptyCells s.board)
      ({ reservoir := none, skipWeight := 0 }, k) (Or.inr hne)
    obtain ⟨⟨rc, sc⟩, hres⟩ := Option.isSome_iff_exists.1 hsome
    have hgr : (((emptyCells s.board).foldl
        (fun (acc : ESSampler × ℕ) rc => ESSampler.insert E acc.1 acc.2 rc 1)
        ({ reservoir := none, skipWeight := 0 }, k)).1).getResult =
        some rc := by
      unfold ESSampler.getResult
      rw [hres]
      rfl
    have hmem : rc ∈ emptyCells s.board := by
      rcases fold_insert_mem E (emptyCells s.board)
          ({ reservoir := none, skipWeight := 0 }, k) rc sc hres with
        ⟨sc₀, habs⟩ | hmem
      · exact absurd habs (by simp)
      · exact hmem
    obtain ⟨hmemL, hoccB⟩ := List.mem_filter.1 hmem
    have hocc : getOccupant s.board (rc.1 : ℤ) (rc.2 : ℤ) =
        some Occupant.nobody := by
      simpa using hoccB
    have hvrc : isValidLocation s.board (rc.1 : ℤ) (rc.2 : ℤ) = true :=
      boardLocs_valid hb (by simpa using hmemL)
    have hai : aiTurn E s k =
        ({ board := setOccupant2 s.board (rc.1 : ℤ) (rc.2 : ℤ) Occupant.player2
           currentPlayer := 1 },
         ((emptyCells s.board).foldl
          (fun (acc : ESSampler × ℕ) rc => ESSampler.insert E acc.1 acc.2 rc 1)
          ({ reservoir := none, skipWeight := 0 }, k)).2) := by
      unfold aiTurn
      rw [if_pos h2]
      simp only [hgr]
    refine ⟨by rw [hai], rc.1, rc.2, hvrc, hocc, by rw [hai], ?_, ?_⟩
    · rw [hai]
      show getOccupant (setOccupant2 s.board _ _ Occupant.player2) _ _ = _
      rw [getOccupant_setOccupant2 hb hvrc Occupant.player2, if_pos rfl]
    · intro r' c' hne'
      rw [hai]
      show getOccupant (setOccupant2 s.board _ _ Occupant.player2) r' c' = _
      rw [getOccupant_setOccupant2 hb hvrc Occupant.player2, if_neg hne']
  · -- (c) full board
    intro h2 hall
    have hempty : emptyCells s.board = [] := by
      unfold emptyCells
      rw [List.filter_eq_nil_iff]
      rintro ⟨r, c⟩ hmem
      simp only [decide_eq_true_eq]
      exact hall r c hmem
    have hai : aiTurn E s k = ({ s with currentPlayer := 3 }, k) := by
      unfold aiTurn
      rw [if_pos h2, hempty]
      rfl
    exact ⟨hempty, rfl, hai, by rw [hai]⟩

/-- A concrete deterministic entropy source, for witnesses. -/
def entropyZero : Entropy :=
  { rand := fun _ => 0, pow := fun _ _ => 0, log := fun _ => 0 }

/-- A concrete game state, for witnesses: fresh 2-row board, AI to move. -/
def gameState0 : GameState := { board := mkBoard 2, currentPlayer := 2 }

theorem turn_controller_step_witness :
    gameState0.board.Wf ∧
    ((∀ r c : ℤ, gameState0.currentPlayer = 1 →
      isValidLocation gameState0.board r c = true →
      getOccupant gameState0.board r c = some Occupant.nobody →
      processClick gameState0 r c =
        { board := setOccupant2 gameState0.board r c Occupant.player1
          currentPlayer := 2 } ∧
      getOccupant (processClick gameState0 r c).board r c =
        some Occupant.player1) ∧
    (gameState0.currentPlayer = 2 → gameState0.board.nrows % 2 = 0 →
      (∃ r c : ℕ, isValidLocation gameState0.board (r : ℤ) (c : ℤ) = true ∧
        getOccupant gameState0.board (r : ℤ) (c : ℤ) =
          some Occupant.nobody) →
      (aiTurn entropyZero gameState0 0).1.currentPlayer = 1 ∧
      (∃ r c : ℕ, isValidLocation gameState0.board (r : ℤ) (c : ℤ) = true ∧
        getOccupant gameState0.board (r : ℤ) (c : ℤ) = some Occupant.nobody ∧
        (aiTurn entropyZero gameState0 0).1.board =
          setOccupant2 gameState0.board (r : ℤ) (c : ℤ) Occupant.player2 ∧
        getOccupant (aiTurn entropyZero gameState0 0).1.board (r : ℤ)
          (c : ℤ) = some Occupant.player2 ∧
        (∀ r' c' : ℤ,
          toIndex gameState0.board r' c' ≠
            toIndex gameState0.board (r : ℤ) (c : ℤ) →
          getOccupant (aiTurn entropyZero gameState0 0).1.board r' c' =
            getOccupant gameState0.board r' c'))) ∧
    (gameState0.currentPlayer = 2 →
      (∀ r c : ℕ, (r, c) ∈ boardLocs gameState0.board →
        getOccupant gameState0.board (r : ℤ) (c : ℤ) ≠
          some Occupant.nobody) →
      emptyCells gameState0.board = [] ∧
      (ESSampler.getResult { reservoir := none, skipWeight := 0 }) = none ∧
      aiTurn entropyZero gameState0 0 =
        ({ gameState0 with currentPlayer := 3 }, 0) ∧
      (aiTurn entropyZero gameState0 0).1.board = gameState0.board)) :=
  ⟨by decide, turn_controller_step entropyZero gameState0 0 (by decide)⟩

/-- Two boards with the same geometry fields and store size. -/
def geomEq (b b' : Board) : Prop :=
  b'.nrows = b.nrows ∧ b'.ncols = b.ncols ∧ b'.matWidth = b.matWidth ∧
    b'.matHeight = b.matHeight ∧ b'.tiles.length = b.tiles.length

lemma geomEq_refl (b : Board) : geomEq b b := ⟨rfl, rfl, rfl, rfl, rfl⟩

lemma geomEq_clear (b : Board) : geomEq b b.clear :=
  ⟨rfl, rfl, rfl, rfl, clear_tiles_length b⟩

lemma geomEq_set (b b' : Board) (h : geomEq b b') (r c : ℤ) (o : Occupant) :
    geomEq b (setOccupant2 b' r c o) := by
  obtain ⟨g1, g2, g3, g4, g5⟩ := h
  obtain ⟨f1, f2, f3, f4, f5⟩ := setOccupant2_fields b' r c o
  exact ⟨f1.trans g1, f2.trans g2, f3.trans g3, f4.trans g4, f5.trans g5⟩

lemma geomEq_wf {b b' : Board} (hb : b.Wf) (h : geomEq b b') : b'.Wf := by
  obtain ⟨g1, g2, g3, g4, g5⟩ := h
  obtain ⟨w1, w2, w3, w4⟩ := hb
  refine ⟨by omega, by omega, by omega, ?_⟩
  rw [g5, g3, g4]
  exact w4

lemma geomEq_valid {b b' : Board} (h : geomEq b b') (r c : ℤ) :
    isValidLocation b' r c = isValidLocation b r c := by
  obtain ⟨g1, g2, g3, g4, g5⟩ := h
  unfold isValidLocation
  rw [g1, g2, g4]

lemma geomEq_toIndex {b b' : Board} (h : geomEq b b') (r c : ℤ) :
    toIndex b' r c = toIndex b r c := by
  obtain ⟨g1, g2, g3, g4, g5⟩ := h
  unfold toIndex
  rw [g3, g4]

lemma geomEq_boardLocs {b b' : Board} (h : geomEq b b') :
    boardLocs b' = boardLocs b :=
  boardLocs_ext h.1 h.2.1 h.2.2.2.1

/-- Writing a previously-`NOBODY` visited cell with color `o` bumps the
`o` count by one and leaves the other colors' counts alone. -/
lemma countOcc_setOccupant {b' : Board} (hb' : b'.Wf) {r c : ℕ}
    (hmem : (r, c) ∈ boardLocs b')
    (hocc : getOccupant b' (r : ℤ) (c : ℤ) = some Occupant.nobody)
    (o : Occupant) (ho : o ≠ Occupant.nobody) :
    countOcc (setOccupant2 b' (r : ℤ) (c : ℤ) o) o = countOcc b' o + 1 ∧
    (∀ o', o' ≠ o → o' ≠ Occupant.nobody →
      countOcc (setOccupant2 b' (r : ℤ) (c : ℤ) o) o' = countOcc b' o') := by
  have hv : isValidLocation b' (r : ℤ) (c : ℤ) = true := boardLocs_valid hb' hmem
  have hlocs : boardLocs (setOccupant2 b' (r : ℤ) (c : ℤ) o) = boardLocs b' :=
    geomEq_boardLocs (geomEq_set b' b' (geomEq_refl b') _ _ o)
  obtain ⟨L₁, L₂, hsplit⟩ := List.append_of_mem hmem
  have hnodup := boardLocs_nodup b'
  rw [hsplit] at hnodup
  have hnotmem : (r, c) ∉ L₁ ∧ (r, c) ∉ L₂ := by
    constructor
    · intro hc
      exact (List.disjoint_of_nodup_append hnodup) hc (List.mem_cons_self _ _)
    · have := (List.nodup_append.1 hnodup).2.1
      intro hc
      exact (List.nodup_cons.1 this).1 hc
  have hread : ∀ x : ℕ × ℕ, x ∈ L₁ ∨ x ∈ L₂ →
      getOccupant (setOccupant2 b' (r : ℤ) (c : ℤ) o) (x.1 : ℤ) (x.2 : ℤ) =
        getOccupant b' (x.1 : ℤ) (x.2 : ℤ) := by
    intro x hx
    have hxmem : x ∈ boardLocs b' := by
      rw [hsplit]
      rcases hx with hx | hx
      · exact List.mem_append_left _ hx
      · exact List.mem_append_right _ (List.mem_cons_of_mem _ hx)
    have hxv := boardLocs_valid hb' (show (x.1, x.2) ∈ boardLocs b' by
      simpa using hxmem)
    have hxne : x ≠ (r, c) := by
      intro hc
      subst hc
      rcases hx with hx | hx
      · exact hnotmem.1 hx
      · exact hnotmem.2 hx
    have hidx : toIndex b' (x.1 : ℤ) (x.2 : ℤ) ≠ toIndex b' (r : ℤ) (c : ℤ) := by
      intro hc
      obtain ⟨h1, h2⟩ := toIndex_inj hb' hxv hv hc
      apply hxne
      have hx1 : x.1 = r := by exact_mod_cast h1
      have hx2 : x.2 = c := by exact_mod_cast h2
      exact Prod.ext hx1 hx2
    rw [getOccupant_setOccupant2 hb' hv o, if_neg hidx]
  have hself : getOccupant (setOccupant2 b' (r : ℤ) (c : ℤ) o) (r : ℤ) (c : ℤ) =
      some o := by
    rw [getOccupant_setOccupant2 hb' hv o, if_pos rfl]
  have hcount : ∀ o'' : Occupant, o'' ≠ Occupant.nobody →
      countOcc (setOccupant2 b' (r : ℤ) (c : ℤ) o) o'' =
        countOcc b' o'' + (if o'' = o then 1 else 0) := by
    intro o'' ho''
    unfold countOcc
    rw [hlocs, hsplit, List.countP_append, List.countP_append,
      List.countP_cons, List.countP_cons]
    have e1 : List.countP (fun rc => decide
        (getOccupant (setOccupant2 b' (r:ℤ) (c:ℤ) o) (rc.1:ℤ) (rc.2:ℤ) =
          some o'')) L₁ =
        List.countP (fun rc => decide
        (getOccupant b' (rc.1:ℤ) (rc.2:ℤ) = some o'')) L₁ :=
      List.countP_congr (fun x hx => by
        simp only [decide_eq_true_eq]
        rw [hread x (Or.inl hx)])
    have e2 : List.countP (fun rc => decide
        (getOccupant (setOccupant2 b' (r:ℤ) (c:ℤ) o) (rc.1:ℤ) (rc.2:ℤ) =
          some o'')) L₂ =
        List.countP (fun rc => decide
        (getOccupant b' (rc.1:ℤ) (rc.2:ℤ) = some o'')) L₂ :=
      List.countP_congr (fun x hx => by
        simp only [decide_eq_true_eq]
        rw [hread x (Or.inr hx)])
    rw [e1, e2]
    simp only [decide_eq_true_eq]
    rw [hself, hocc]
    by_cases ho''o : o'' = o
    · subst ho''o
      rw [if_pos rfl, if_pos rfl, if_neg (fun hc : some Occupant.nobody =
        some o'' => ho'' (by injection hc with h1; exact h1.symm))]
      omega
    · rw [if_neg ho''o, if_neg (fun hc : some o = some o'' =>
        ho''o (by injection hc with h1; exact h1.symm)),
        if_neg (fun hc : some Occupant.nobody = some o'' =>
          ho'' (by injection hc with h1; exact h1.symm))]
      omega
  exact ⟨by rw [hcount o ho, if_pos rfl],
    fun o' ho'o ho'n => by rw [hcount o' ho'n, if_neg ho'o]; omega⟩

/-- The `'randomize'` assignment loop: starting from quotas `m1`, `m2`
that exactly exhaust the remaining (all-`NOBODY`, distinct, visited)
cells, and any entropy stream of values in `[0, 1)`, the loop uses up both
quotas exactly, colors every remaining cell, and touches nothing else. -/
lemma randFold_spec (E : Entropy)
    (hrand : ∀ j, 0 ≤ E.rand j ∧ E.rand j < 1) (b : Board) :
    ∀ (S : List (ℕ × ℕ)) (acc : RandAcc) (m1 m2 : ℕ),
    geomEq b acc.board → acc.board.Wf → S.Nodup →
    (∀ rc ∈ S, rc ∈ boardLocs b) →
    (∀ rc ∈ S, getOccupant acc.board (rc.1 : ℤ) (rc.2 : ℤ) =
      some Occupant.nobody) →
    acc.p1rem = (m1 : ℚ) → acc.p2rem = (m2 : ℚ) → m1 + m2 = S.length →
    geomEq b (S.foldl (randStep E) acc).board ∧
    countOcc (S.foldl (randStep E) acc).board Occupant.player1 =
      countOcc acc.board Occupant.player1 + m1 ∧
    countOcc (S.foldl (randStep E) acc).board Occupant.player2 =
      countOcc acc.board Occupant.player2 + m2 ∧
    (∀ rc ∈ S,
      getOccupant (S.foldl (randStep E) acc).board (rc.1 : ℤ) (rc.2 : ℤ) =
          some Occupant.player1 ∨
      getOccupant (S.foldl (randStep E) acc).board (rc.1 : ℤ) (rc.2 : ℤ) =
          some Occupant.player2) ∧
    (∀ r' c' : ℤ,
      (∀ rc ∈ S, toIndex b r' c' ≠ toIndex b (rc.1 : ℤ) (rc.2 : ℤ)) →
      getOccupant (S.foldl (randStep E) acc).board r' c' =
        getOccupant acc.board r' c') := by
  intro S
  induction S with
  | nil =>
    intro acc m1 m2 hg hw _ _ _ h1 h2 hsum
    simp only [List.length_nil] at hsum
    simp only [List.foldl_nil]
    have hm1 : m1 = 0 := by omega
    have hm2 : m2 = 0 := by omega
    subst hm1
    subst hm2
    exact ⟨hg, by omega, by omega, by simp, by simp⟩
  | cons hd tl ih =>
    intro acc m1 m2 hg hw hnodup hmem hempty h1 h2 hsum
    have hdmem : hd ∈ boardLocs b := hmem hd (List.mem_cons_self hd tl)
    have hdmem' : hd ∈ boardLocs acc.board := by
      rw [geomEq_boardLocs hg]
      exact hdmem
    have hdmem'' : (hd.1, hd.2) ∈ boardLocs acc.board := by
      simpa using hdmem'
    have hdv : isValidLocation acc.board (hd.1 : ℤ) (hd.2 : ℤ) = true :=
      boardLocs_valid hw hdmem''
    have hdocc : getOccupant acc.board (hd.1 : ℤ) (hd.2 : ℤ) =
        some Occupant.nobody := hempty hd (List.mem_cons_self hd tl)
    have hsumpos : (0 : ℚ) < (m1 : ℚ) + (m2 : ℚ) := by
      have : 0 < m1 + m2 := by
        have := hsum
        simp only [List.length_cons] at this
        omega
      exact_mod_cast this
    -- distinct indices of the remaining cells
    have hdist : ∀ rc ∈ tl,
        toIndex acc.board (rc.1 : ℤ) (rc.2 : ℤ) ≠
          toIndex acc.board (hd.1 : ℤ) (hd.2 : ℤ) := by
      intro rc hrc hc
      have hrcmem : (rc.1, rc.2) ∈ boardLocs acc.board := by
        rw [geomEq_boardLocs hg]
        simpa using hmem rc (List.mem_cons_of_mem hd hrc)
      have hrcv := boardLocs_valid hw hrcmem
      obtain ⟨e1, e2⟩ := toIndex_inj hw hrcv hdv hc
      have : rc = hd := by
        have i1 : rc.1 = hd.1 := by exact_mod_cast e1
        have i2 : rc.2 = hd.2 := by exact_mod_cast e2
        exact Prod.ext i1 i2
      rw [this] at hrc
      exact (List.nodup_cons.1 hnodup).1 hrc
    by_cases hbr : E.rand acc.k < acc.p1rem / (acc.p1rem + acc.p2rem)
    · -- PLAYER_1 branch: the p1 quota must still be positive
      have hm1pos : 1 ≤ m1 := by
        by_contra hc
        have hm10 : m1 = 0 := by omega
        rw [h1, h2, hm10] at hbr
        simp only [Nat.cast_zero, zero_div] at hbr
        exact absurd hbr (not_lt.2 (hrand acc.k).1)
      obtain ⟨hc1, hc2⟩ := countOcc_setOccupant hw hdmem'' hdocc
        Occupant.player1 (by simp)
      set acc' : RandAcc :=
        { board := setOccupant2 acc.board (hd.1 : ℤ) (hd.2 : ℤ)
            Occupant.player1
          p1rem := acc.p1rem - 1
          p2rem := acc.p2rem
          k := acc.k + 1 } with hacc'
      have hfold : (hd :: tl).foldl (randStep E) acc =
          tl.foldl (randStep E) acc' := by
        rw [List.foldl_cons]
        congr 1
        simp only [randStep]
        rw [if_pos hbr, hacc']
      rw [hfold]
      have hg' : geomEq b acc'.board := geomEq_set b acc.board hg _ _ _
      have hw' : acc'.board.Wf := geomEq_wf (geomEq_wf hw (geomEq_refl _))
        (geomEq_set acc.board acc.board (geomEq_refl _) _ _ _)
      have hempty' : ∀ rc ∈ tl, getOccupant acc'.board (rc.1 : ℤ)
          (rc.2 : ℤ) = some Occupant.nobody := by
        intro rc hrc
        show getOccupant (setOccupant2 acc.board _ _ _) _ _ = _
        rw [getOccupant_setOccupant2 hw hdv Occupant.player1,
          if_neg (hdist rc hrc)]
        exact hempty rc (List.mem_cons_of_mem hd hrc)
      obtain ⟨ihg, ihc1, ihc2, ihocc, ihframe⟩ := ih acc' (m1 - 1) m2 hg' hw'
        (List.nodup_cons.1 hnodup).2
        (fun rc hrc => hmem rc (List.mem_cons_of_mem hd hrc)) hempty'
        (by
          show acc.p1rem - 1 = ((m1 - 1 : ℕ) : ℚ)
          rw [h1]
          push_cast [hm1pos]
          ring)
        (by show acc.p2rem = (m2 : ℚ); exact h2)
        (by simp only [List.length_cons] at hsum; omega)
      refine ⟨ihg, ?_, ?_, ?_, ?_⟩
      · rw [ihc1]
        show countOcc acc'.board Occupant.player1 + (m1 - 1) = _
        rw [hc1]
        omega
      · rw [ihc2]
        show countOcc acc'.board Occupant.player2 + m2 = _
        rw [hc2 Occupant.player2 (by simp) (by simp)]
      · intro rc hrc
        rcases List.mem_cons.1 hrc with rfl | hrc'
        · left
          rw [ihframe (rc.1 : ℤ) (rc.2 : ℤ) (fun rc' hrc' => by
            have hh := hdist rc' hrc'
            rw [geomEq_toIndex hg, geomEq_toIndex hg] at hh
            exact Ne.symm hh)]
          show getOccupant (setOccupant2 acc.board _ _ _) _ _ = _
          rw [getOccupant_setOccupant2 hw hdv Occupant.player1, if_pos rfl]
        · exact ihocc rc hrc'
      · intro r' c' hfar
        rw [ihframe r' c' (fun rc hrc =>
          hfar rc (List.mem_cons_of_mem hd hrc))]
        show getOccupant (setOccupant2 acc.board _ _ _) _ _ = _
        rw [getOccupant_setOccupant2 hw hdv Occupant.player1, if_neg (by
          rw [geomEq_toIndex hg, geomEq_toIndex hg]
          exact hfar hd (List.mem_cons_self hd tl))]
    · -- PLAYER_2 branch: the p2 quota must still be positive
      have hm2pos : 1 ≤ m2 := by
        by_contra hc
        have hm20 : m2 = 0 := by omega
        have hm1ne : m1 ≠ 0 := by
          simp only [List.length_cons] at hsum
          omega
        have hcut : acc.p1rem / (acc.p1rem + acc.p2rem) = 1 := by
          rw [h1, h2, hm20]
          push_cast
          rw [add_zero, div_self (by exact_mod_cast hm1ne)]
        rw [hcut] at hbr
        exact hbr ((hrand acc.k).2)
      obtain ⟨hc1, hc2⟩ := countOcc_setOccupant hw hdmem'' hdocc
        Occupant.player2 (by simp)
      set acc' : RandAcc :=
        { board := setOccupant2 acc.board (hd.1 : ℤ) (hd.2 : ℤ)
            Occupant.player2
          p1rem := acc.p1rem
          p2rem := acc.p2rem - 1
          k := acc.k + 1 } with hacc'
      have hfold : (hd :: tl).foldl (randStep E) acc =
          tl.foldl (randStep E) acc' := by
        rw [List.foldl_cons]
        congr 1
        simp only [randStep]
        rw [if_neg hbr, hacc']
      rw [hfold]
      have hg' : geomEq b acc'.board := geomEq_set b acc.board hg _ _ _
      have hw' : acc'.board.Wf := geomEq_wf (geomEq_wf hw (geomEq_refl _))
        (geomEq_set acc.board acc.board (geomEq_refl _) _ _ _)
      have hempty' : ∀ rc ∈ tl, getOccupant acc'.board (rc.1 : ℤ)
          (rc.2 : ℤ) = some Occupant.nobody := by
        intro rc hrc
        show getOccupant (setOccupant2 acc.board _ _ _) _ _ = _
        rw [getOccupant_setOccupant2 hw hdv Occupant.player2,
          if_neg (hdist rc hrc)]
        exact hempty rc (List.mem_cons_of_mem hd hrc)
      obtain ⟨ihg, ihc1, ihc2, ihocc, ihframe⟩ := ih acc' m1 (m2 - 1) hg' hw'
        (List.nodup_cons.1 hnodup).2
        (fun rc hrc => hmem rc (List.mem_cons_of_mem hd hrc)) hempty'
        (by show acc.p1rem = (m1 : ℚ); exact h1)
        (by
          show acc.p2rem - 1 = ((m2 - 1 : ℕ) : ℚ)
          rw [h2]
          push_cast [hm2pos]
          ring)
        (by simp only [List.length_cons] at hsum; omega)
      refine ⟨ihg, ?_, ?_, ?_, ?_⟩
      · rw [ihc1]
        show countOcc acc'.board Occupant.player1 + m1 = _
        rw [hc2 Occupant.player1 (by simp) (by simp)]
      · rw [ihc2]
        show countOcc acc'.board Occupant.player2 + (m2 - 1) = _
        rw [hc1]
        omega
      · intro rc hrc
        rcases List.mem_cons.1 hrc with rfl | hrc'
        · right
          rw [ihframe (rc.1 : ℤ) (rc.2 : ℤ) (fun rc' hrc' => by
            have hh := hdist rc' hrc'
            rw [geomEq_toIndex hg, geomEq_toIndex hg] at hh
            exact Ne.symm hh)]
          show getOccupant (setOccupant2 acc.board _ _ _) _ _ = _
          rw [getOccupant_setOccupant2 hw hdv Occupant.player2, if_pos rfl]
        · exact ihocc rc hrc'
      · intro r' c' hfar
        rw [ihframe r' c' (fun rc hrc =>
          hfar rc (List.mem_cons_of_mem hd hrc))]
        show getOccupant (setOccupant2 acc.board _ _ _) _ _ = _
        rw [getOccupant_setOccupant2 hw hdv Occupant.player2, if_neg (by
          rw [geomEq_toIndex hg, geomEq_toIndex hg]
          exact hfar hd (List.mem_cons_self hd tl))]

/-- C6: after a `ResetBoard` (`randomize`) command on the game's board
(well-formed, even row count — `Board(16)` in the program; the store size
`w * h = (h+1) * h` is then even), no Empty valid cell remains, the cells
are split exactly in half between the players (`total/2` each, the
PlayerOne half being the rounded-down half `⌊total/2⌋`), and whose turn it
is does not change — for every entropy source with draws in `[0, 1)`. -/
theorem reset_board (E : Entropy) (s : GameState) (k : ℕ)
    (hb : s.board.Wf) (heven : s.board.nrows % 2 = 0)
    (hrand : ∀ j, 0 ≤ E.rand j ∧ E.rand j < 1) :
    (processRandomize E s k).1.currentPlayer = s.currentPlayer ∧
    (∀ r c : ℕ, isValidLocation s.board (r : ℤ) (c : ℤ) = true →
      getOccupant (processRandomize E s k).1.board (r : ℤ) (c : ℤ) =
          some Occupant.player1 ∨
      getOccupant (processRandomize E s k).1.board (r : ℤ) (c : ℤ) =
          some Occupant.player2) ∧
    countOcc (processRandomize E s k).1.board Occupant.player1 =
      s.board.tiles.length / 2 ∧
    countOcc (processRandomize E s k).1.board Occupant.player2 =
      s.board.tiles.length / 2 := by
  set b := s.board with hbdef
  -- the store size is even
  have htot : ∃ t, b.tiles.length = 2 * t := by
    obtain ⟨hwm, hlen, hcase⟩ := wf_cases hb
    rcases hcase with ⟨he, hwh⟩ | ⟨ho, hwh, hh⟩
    · obtain ⟨t, ht⟩ := Nat.even_mul_succ_self b.matHeight
      refine ⟨t, ?_⟩
      rw [hlen, hwh, mul_comm]
      omega
    · omega
  obtain ⟨t, ht⟩ := htot
  set S := boardLocs b.clear with hSdef
  set acc₀ : RandAcc :=
    { board := b.clear
      p1rem := (b.tiles.length : ℚ) / 2
      p2rem := (b.tiles.length : ℚ) - (b.tiles.length : ℚ) / 2
      k := k } with hacc₀
  have hSlocs : S = boardLocs b := boardLocs_clear b
  have hSlen : S.length = b.tiles.length := by
    rw [hSlocs]
    exact boardLocs_length hb heven
  have hcast : ((b.tiles.length : ℚ)) = 2 * (t : ℚ) := by
    exact_mod_cast congrArg (Nat.cast : ℕ → ℚ) ht
  obtain ⟨hg, hc1, hc2, hocc, -⟩ := randFold_spec E hrand b S acc₀ t t
    (geomEq_clear b) (clear_wf hb)
    (by rw [hSlocs]; exact boardLocs_nodup b)
    (by rw [hSlocs]; exact fun rc hrc => hrc)
    (by
      rw [hSlocs]
      intro rc hrc
      exact getOccupant_clear hb (by simpa using hrc))
    (by show (b.tiles.length : ℚ) / 2 = (t : ℚ); rw [hcast]; ring)
    (by
      show (b.tiles.length : ℚ) - (b.tiles.length : ℚ) / 2 = (t : ℚ)
      rw [hcast]
      ring)
    (by omega)
  have hpr : processRandomize E s k =
      ({ s with board := (S.foldl (randStep E) acc₀).board },
        (S.foldl (randStep E) acc₀).k) := rfl
  have hclr1 : countOcc b.clear Occupant.player1 = 0 :=
    countOcc_clear hb (by simp)
  have hclr2 : countOcc b.clear Occupant.player2 = 0 :=
    countOcc_clear hb (by simp)
  refine ⟨by rw [hpr], ?_, ?_, ?_⟩
  · intro r c hv
    have hmem : (r, c) ∈ S := by
      rw [hSlocs]
      exact (mem_boardLocs_iff_valid hb heven r c).2 hv
    have := hocc (r, c) hmem
    rw [hpr]
    simpa using this
  · rw [hpr]
    show countOcc (S.foldl (randStep E) acc₀).board Occupant.player1 = _
    rw [hc1]
    show countOcc b.clear Occupant.player1 + t = _
    rw [hclr1]
    omega
  · rw [hpr]
    show countOcc (S.foldl (randStep E) acc₀).board Occupant.player2 = _
    rw [hc2]
    show countOcc b.clear Occupant.player2 + t = _
    rw [hclr2]
    omega

theorem reset_board_witness :
    (gameState0.board.Wf ∧ gameState0.board.nrows % 2 = 0 ∧
      (∀ j, 0 ≤ entropyZero.rand j ∧ entropyZero.rand j < 1)) ∧
    ((processRandomize entropyZero gameState0 0).1.currentPlayer =
        gameState0.currentPlayer ∧
    (∀ r c : ℕ, isValidLocation gameState0.board (r : ℤ) (c : ℤ) = true →
      getOccupant (processRandomize entropyZero gameState0 0).1.board
          (r : ℤ) (c : ℤ) = some Occupant.player1 ∨
      getOccupant (processRandomize entropyZero gameState0 0).1.board
          (r : ℤ) (c : ℤ) = some Occupant.player2) ∧
    countOcc (processRandomize entropyZero gameState0 0).1.board
        Occupant.player1 = gameState0.board.tiles.length / 2 ∧
    countOcc (processRandomize entropyZero gameState0 0).1.board
        Occupant.player2 = gameState0.board.tiles.length / 2) :=
  ⟨⟨by decide, by decide, fun j => by
      constructor <;> norm_num [entropyZero]⟩,
    reset_board entropyZero gameState0 0 (by decide) (by decide)
      (fun j => by constructor <;> norm_num [entropyZero])⟩

theorem dsOps_out_of_range_witness :
    (1 ≤ 3 ∧ (mkDS 2 []).sets.length ≤ 5 ∧ 2 ≤ 7 ∧ 1 < 2 ∧
      (mkDS 2 []).metadata.length ≤ 5) ∧
    (findRootF 3 (mkDS 2 []).sets 5 = some (none, (mkDS 2 []).sets) ∧
    eraseNode { sets := (mkDS 2 []).sets, metadata := (mkDS 2 []).metadata }
      5 = { sets := (mkDS 2 []).sets, metadata := (mkDS 2 []).metadata } ∧
    unionF (2 + 1) (mkDS 2 []) 7 1 = some (Except.error ()) ∧
    (mkDS 2 []).sets.length ≤ 7) :=
  ⟨⟨by norm_num, by decide, by norm_num, by norm_num, by decide⟩,
    dsOps_out_of_range 2 [] (mkDS 2 []).sets (mkDS 2 []).metadata 5 7 1 3
      (by norm_num) (by decide) (by decide) (by decide) (by decide)⟩

/-! ## The scoring engine -/

/-- The page's global `board` is `new Board(BOARD_HEIGHT)` with
`BOARD_HEIGHT = 16`; `getScores`'s neighbor check reads the *global*
`board.isValidLocation`, not `this.isValidLocation` (they coincide at
runtime, where `this` is that very board). -/
def globalValid (r c : ℤ) : Bool := isValidLocation (mkBoard 16) r c

/-- `checkNeighbor(nr, nc)` inside `getScores`: skip invalid (per the
global board) neighbors, union the two tiles when the neighbor holds the
same occupant value (JavaScript `===`, so `undefined === undefined`
matches too).  `none` is an uncaught runtime error (fuel exhaustion or
`union`'s `TypeError`) — never reached on well-formed boards. -/
def checkNeighbor (b : Board) (ds : DisjointSet) (i : ℕ)
    (occ : Option Occupant) (nr nc : ℤ) : Option DisjointSet :=
  if globalValid nr nc = false then some ds
  else if getOccupant b nr nc = occ then
    match unionF (b.tiles.length + 1) ds i (toIndex b nr nc).toNat with
    | some (Except.ok ds') => some ds'
    | _ => none
  else some ds

/-- The body of `getScores`'s `forEach`: skip unowned tiles, otherwise
union with the north-east, north-west and west neighbors. -/
def processCell (b : Board) (ds : DisjointSet) (rc : ℕ × ℕ) :
    Option DisjointSet :=
  let i := (toIndex b (rc.1 : ℤ) (rc.2 : ℤ)).toNat
  let occ := b.tiles[i]?
  if occ = some Occupant.nobody then some ds
  else do
    let ds1 ← checkNeighbor b ds i occ ((rc.1 : ℤ) - 1) (rc.2 : ℤ)
    let ds2 ← checkNeighbor b ds1 i occ ((rc.1 : ℤ) - 1) ((rc.2 : ℤ) - 1)
    checkNeighbor b ds2 i occ (rc.1 : ℤ) ((rc.2 : ℤ) - 1)

/-- The estimate heuristic for one component:
`int + frac` with `int = floor(log2 size)` and
`frac = (size - 2^int) / 2^int`. -/
def estimateOf (size : ℕ) : ℚ :=
  (Nat.log2 size : ℚ) +
    ((size : ℚ) - 2 ^ Nat.log2 size) / 2 ^ Nat.log2 size

/-- The reduction over surviving roots: accumulate each root's size into
its color's product and estimate; colors other than the two players
(including `NOBODY` and `undefined`) contribute nothing. -/
def reduceScores (ds : DisjointSet) : ScoreData :=
  ds.metadata.foldl
    (fun (acc : ScoreData) m =>
      match m with
      | none => acc
      | some md =>
        match md.color with
        | some Occupant.player1 =>
            { acc with
              p1prod := acc.p1prod * md.size
              p1estimate := acc.p1estimate + estimateOf md.size }
        | some Occupant.player2 =>
            { acc with
              p2prod := acc.p2prod * md.size
              p2estimate := acc.p2estimate + estimateOf md.size }
        | _ => acc)
    { p1prod := 1, p2prod := 1, p1estimate := 0, p2estimate := 0 }

/-- The uncached score computation: fresh forest seeded with the tile
values, one pass of neighbor unions, then the reduction. -/
def computeScores (b : Board) : Option ScoreData :=
  ((boardLocs b).foldlM (processCell b)
    (mkDS b.tiles.length b.tiles)).map reduceScores

/-- `Board.getScores()`: cache hit returns the stored result and leaves
the board untouched; otherwise compute and store. -/
def getScores (b : Board) : Option (ScoreData × Board) :=
  match b.cachedScores with
  | some s => some (s, b)
  | none => (computeScores b).map fun s => (s, { b with cachedScores := some s })

example : computeScores (mkBoard 2) =
    some { p1prod := 1, p2prod := 1, p1estimate := 0, p2estimate := 0 } := by
  decide

/-- C7 counterexample: `Board(2)` does not have the three valid cells the
claim lists — its store has only two slots, and `(1,0)` fails the validity
predicate (`r ≥ matHeight` requires `c > r − matHeight`, i.e. `c > 0`), so
`setOccupant(1,0,·)` throws instead of placing a stone. -/
theorem scoring_rowcount2_counterexample :
    (mkBoard 2).tiles.length = 2 ∧
    isValidLocation (mkBoard 2) 1 0 = false ∧
    (setOccupant (mkBoard 2) 1 0 Occupant.player1).1 =
      some "setOccupant: Invalid location" ∧
    isValidLocation (mkBoard 2) 0 0 = true ∧
    isValidLocation (mkBoard 2) 1 1 = true := by
  refine ⟨by decide, by decide, ?_, by decide, by decide⟩
  unfold setOccupant
  rw [if_neg (by decide)]

/-- The `Board(2)` fixture with both valid cells owned by PlayerOne. -/
def board2p1 : Board :=
  setOccupant2 (setOccupant2 (mkBoard 2) 0 0 Occupant.player1) 1 1
    Occupant.player1

/-- C7 amended: `Board(2)` has exactly the two valid cells `(0,0)` and
`(1,1)` (visited in that order), which are adjacent via the north-west
direction; with both owned by PlayerOne, `getScores` finds one PlayerOne
component of size 2, so `p1score = log2(2) = 1` and `p2score = log2(1) = 0`
(and the estimates are 1 and 0). -/
theorem scoring_rowcount2 :
    boardLocs (mkBoard 2) = [(0, 0), (1, 1)] ∧
    computeScores board2p1 =
      some { p1prod := 2, p2prod := 1, p1estimate := 1, p2estimate := 0 } ∧
    ScoreData.p1score
      { p1prod := 2, p2prod := 1, p1estimate := 1, p2estimate := 0 } = 1 ∧
    ScoreData.p2score
      { p1prod := 2, p2prod := 1, p1estimate := 1, p2estimate := 0 } = 0 := by
  refine ⟨by decide, ?_, ?_, ?_⟩
  · have hm : ((boardLocs board2p1).foldlM (processCell board2p1)
        (mkDS board2p1.tiles.length board2p1.tiles)).map
          DisjointSet.metadata =
        some [none, some { size := 2, color := some Occupant.player1 }] := by
      decide
    cases hf : (boardLocs board2p1).foldlM (processCell board2p1)
        (mkDS board2p1.tiles.length board2p1.tiles) with
    | none => rw [hf] at hm; exact absurd hm (by simp)
    | some ds =>
      rw [hf] at hm
      simp only [Option.map_some', Option.some.injEq] at hm
      unfold computeScores
      rw [hf, Option.map_some']
      refine congrArg some ?_
      unfold reduceScores
      rw [hm]
      have hl : Nat.log2 2 = 1 := by
        rw [Nat.log2.eq_def]; norm_num; rw [Nat.log2.eq_def]; norm_num
      norm_num [estimateOf, hl]
  · unfold ScoreData.p1score
    norm_num
  · unfold ScoreData.p2score
    norm_num

/-- C10: `getScores` leaves the board's occupancy (indeed every field but
the score cache) unchanged: the forest it builds is local and copies the
occupant values.  The only write is `cachedScores`. -/
theorem getScores_frame (b : Board) (s : ScoreData) (b' : Board)
    (h : getScores b = some (s, b')) :
    b'.tiles = b.tiles ∧ b'.nrows = b.nrows ∧ b'.ncols = b.ncols ∧
    b'.matWidth = b.matWidth ∧ b'.matHeight = b.matHeight ∧
    b'.cachedScores = some s ∧
    (∀ r c : ℤ, getOccupant b' r c = getOccupant b r c) := by
  unfold getScores at h
  match hc : b.cachedScores with
  | some s0 =>
    rw [hc] at h
    simp only [Option.some.injEq, Prod.mk.injEq] at h
    obtain ⟨h1, h2⟩ := h
    subst h2
    exact ⟨rfl, rfl, rfl, rfl, rfl, by rw [hc, h1], fun r c => rfl⟩
  | none =>
    rw [hc] at h
    match hcs : computeScores b with
    | none =>
      rw [hcs] at h
      exact absurd h (by simp)
    | some s1 =>
      rw [hcs] at h
      simp only [Option.map_some', Option.some.injEq, Prod.mk.injEq] at h
      obtain ⟨h1, h2⟩ := h
      subst h1
      subst h2
      refine ⟨rfl, rfl, rfl, rfl, rfl, rfl, fun r c => rfl⟩

def scoreData0 : ScoreData :=
  { p1prod := 1, p2prod := 1, p1estimate := 0, p2estimate := 0 }

def board2cached : Board :=
  { mkBoard 2 with cachedScores := some scoreData0 }

theorem getScores_frame_witness :
    getScores (mkBoard 2) =
      some ({ p1prod := 1, p2prod := 1, p1estimate := 0, p2estimate := 0 },
        board2cached) ∧
    (board2cached.tiles = (mkBoard 2).tiles ∧
      board2cached.nrows = (mkBoard 2).nrows ∧
      board2cached.ncols = (mkBoard 2).ncols ∧
      board2cached.matWidth = (mkBoard 2).matWidth ∧
      board2cached.matHeight = (mkBoard 2).matHeight ∧
      board2cached.cachedScores =
        some { p1prod := 1, p2prod := 1, p1estimate := 0, p2estimate := 0 } ∧
      (∀ r c : ℤ, getOccupant board2cached r c =
        getOccupant (mkBoard 2) r c)) :=
  ⟨by decide, getScores_frame (mkBoard 2) _ board2cached (by decide)⟩

/-- After a successful `getScores`, the returned board stores the returned
result in its cache slot. -/
lemma getScores_cache {b : Board} {s : ScoreData} {b1 : Board}
    (h : getScores b = some (s, b1)) : b1.cachedScores = some s := by
  unfold getScores at h
  match hc : b.cachedScores with
  | some s0 =>
    rw [hc] at h
    simp only [Option.some.injEq, Prod.mk.injEq] at h
    obtain ⟨h1, h2⟩ := h
    subst h2
    rw [hc, h1]
  | none =>
    rw [hc] at h
    match hcs : computeScores b with
    | none =>
      rw [hcs] at h
      exact absurd h (by simp)
    | some s1 =>
      rw [hcs] at h
      simp only [Option.map_some', Option.some.injEq, Prod.mk.injEq] at h
      obtain ⟨h1, h2⟩ := h
      subst h1
      subst h2
      rfl

/-- C5: score-cache correctness.  A `getScores` call that returned
`(s, b1)` left the result cached, so a second call with no intervening
mutation returns the identical result and board; a valid `setOccupant`
clears the cache, so the next `getScores` recomputes from scratch on the
mutated board (the previously returned result is not reused); `clear`
likewise empties the cache and forces a fresh computation.  (A
`setOccupant` on an invalid location throws before writing and is not a
mutation.) -/
theorem score_cache_correct (b : Board) (s : ScoreData) (b1 : Board)
    (h : getScores b = some (s, b1)) :
    getScores b1 = some (s, b1) ∧
    (∀ r c : ℤ, ∀ o : Occupant, isValidLocation b1 r c = true →
      (setOccupant2 b1 r c o).cachedScores = none ∧
      getScores (setOccupant2 b1 r c o) =
        (computeScores (setOccupant2 b1 r c o)).map
          (fun s2 => (s2, { setOccupant2 b1 r c o with cachedScores := some s2 }))) ∧
    (Board.clear b1).cachedScores = none ∧
    getScores (Board.clear b1) =
      (computeScores (Board.clear b1)).map
        (fun s2 => (s2, { Board.clear b1 with cachedScores := some s2 })) := by
  have hcache : b1.cachedScores = some s := getScores_cache h
  refine ⟨?_, ?_, rfl, rfl⟩
  · unfold getScores
    rw [hcache]
  · intro r c o hv
    have hset : setOccupant2 b1 r c o =
        { b1 with
          tiles := b1.tiles.set (toIndex b1 r c).toNat o
          cachedScores := none } := by
      unfold setOccupant2 setOccupant
      rw [if_pos hv]
    rw [hset]
    exact ⟨rfl, rfl⟩

def board4cached : Board :=
  { mkBoard 4 with cachedScores := some scoreData0 }

theorem score_cache_correct_witness :
    getScores (mkBoard 4) = some (scoreData0, board4cached) ∧
    (getScores board4cached = some (scoreData0, board4cached) ∧
    (∀ r c : ℤ, ∀ o : Occupant, isValidLocation board4cached r c = true →
      (setOccupant2 board4cached r c o).cachedScores = none ∧
      getScores (setOccupant2 board4cached r c o) =
        (computeScores (setOccupant2 board4cached r c o)).map
          (fun s2 => (s2, { setOccupant2 board4cached r c o with cachedScores := some s2 }))) ∧
    (Board.clear board4cached).cachedScores = none ∧
    getScores (Board.clear board4cached) =
      (computeScores (Board.clear board4cached)).map
        (fun s2 => (s2, { Board.clear board4cached with cachedScores := some s2 }))) :=
  ⟨by decide, score_cache_correct (mkBoard 4) scoreData0 board4cached (by decide)⟩
